import Mathlib

/-!
Verification of the override-extraction engine of the FmTod/scripts
repository (`src/helm-remove-defaults/main.py` and
`src/helm-remove-defaults/main-ordered.py`).

The YAML documents handled by both scripts are modelled by the nested
inductive type `HelmDiff.Tree` (mappings with ordered string keys,
sequences, scalars, null).  Python scalar values are modelled by
`HelmDiff.Scalar`; finite YAML floats are represented by the exact rational
value of the parsed double and the IEEE NaN by a dedicated constructor
(infinities are outside the model).  Python's `==` on loaded YAML data is
embedded as `pyEqTree`: numbers (int, float, bool) compare numerically
across types, NaN equals nothing (itself included), strings compare only
with strings, containers compare recursively, `None` equals only `None`.
The local and the default document are parsed independently, so no float
object occurs in both trees; the embedding therefore models container
comparison without CPython's same-object shortcut, which never fires
across two separately parsed documents.

`compare_and_extract_diff` embeds the function of the same name from
`main.py` (ruamel-based, lines 69-132): an isinstance-based shape guard,
local-order iteration over mapping keys, atomic sequence comparison and
Python `==` on primitives.  `compare_and_extract_diff_ordered` embeds the
function of the same name from `main-ordered.py` (pyyaml-based, lines
60-121): a `type()`-equality guard and iteration over
`set(local.keys()) | set(default.keys())`.  Python's set iteration order
is not determined by the source, so the ordered variant takes the
enumeration order of that union as an explicit parameter `ord`.
-/

namespace HelmDiff

/-- Scalar (leaf) values of a parsed YAML document: one of integer, float,
string, boolean.  A finite float is the exact rational value of the parsed
IEEE double; the IEEE NaN (YAML .nan), whose Python `==` is false against
every value including itself, is the separate constructor `nan` of Python
type float.  Infinities are outside the model. -/
inductive Scalar where
  | int (n : Int)
  | float (q : Rat)
  | nan
  | str (s : String)
  | bool (b : Bool)
deriving DecidableEq, Repr

/-- A parsed YAML document: an order-preserving mapping (Python dict /
ruamel CommentedMap), a sequence (Python list / CommentedSeq), a scalar, or
the explicit null (Python None). -/
inductive Tree where
  | mapping (es : List (String × Tree))
  | seq (es : List Tree)
  | scalar (s : Scalar)
  | null

/-- Python dictionary lookup `d.get(key)` (also used for the membership
test `key in d`): the value of the first entry carrying the key, if any. -/
def keyLookup (k : String) : List (String × Tree) → Option Tree
  | [] => none
  | (k', v) :: rest => if k' = k then some v else keyLookup k rest

/-- Python identity test `x is None`. -/
def Tree.isNull : Tree → Bool
  | .null => true
  | _ => false

/-- Whether a scalar is the IEEE NaN. -/
def Scalar.isNan : Scalar → Bool
  | .nan => true
  | _ => false

/-- The check `isinstance(x, (CommentedMap, dict))` of main.py line 80. -/
def isMap : Tree → Bool
  | .mapping _ => true
  | _ => false

/-- The check `isinstance(x, (CommentedSeq, list))` of main.py line 82. -/
def isSeq : Tree → Bool
  | .seq _ => true
  | _ => false

/-- Numeric value a scalar takes in Python's cross-type numeric
comparison: ints and floats by value, booleans as 1 and 0.  The string
arm is never consulted by `pyEqScalar` (strings are handled first). -/
def pyNum : Scalar → Rat
  | .int n => (n : Rat)
  | .float q => q
  | .bool b => if b then 1 else 0
  | .nan => 0
  | .str _ => 0

/-- Python `==` on scalar values: NaN equals nothing, itself included;
a string equals only an identical string; int, float and bool compare by
numeric value across types (so 1 == 1.0 and True == 1, but "1" != 1). -/
def pyEqScalar : Scalar → Scalar → Bool
  | .nan, _ => false
  | _, .nan => false
  | .str s, .str t => s = t
  | .str _, _ => false
  | _, .str _ => false
  | a, b => pyNum a = pyNum b

mutual
/-- Python `==` on loaded YAML values: dicts compare by key set and
values (order-insensitive), lists by length and elementwise comparison,
None equals only None, scalars via `pyEqScalar`; values of different
container shape are unequal. -/
def pyEqTree : Tree → Tree → Bool
  | .mapping a, .mapping b => a.length = b.length && pyEqEntries a b
  | .seq a, .seq b => a.length = b.length && pyEqElems a b
  | .scalar x, .scalar y => pyEqScalar x y
  | .null, .null => true
  | _, _ => false

/-- Python dict equality, entry side: every key of the first dict is
present in the second with `==`-equal value. -/
def pyEqEntries : List (String × Tree) → List (String × Tree) → Bool
  | [], _ => true
  | (k, v) :: rest, b =>
    (match keyLookup k b with
     | some w => pyEqTree v w
     | none => false) && pyEqEntries rest b

/-- Python list equality, element side: pairwise `==` (lengths are
checked by the caller). -/
def pyEqElems : List Tree → List Tree → Bool
  | [], _ => true
  | _, [] => true
  | x :: xs, y :: ys => pyEqTree x y && pyEqElems xs ys
end

mutual
/-- Embeds `compare_and_extract_diff` of
`src/helm-remove-defaults/main.py` (lines 69-132): if the isinstance-based
shape flags differ the local value is returned (None for a null local);
mappings are diffed key by key in local order; sequences and primitives
are compared atomically with Python `==`. -/
def compare_and_extract_diff : Tree → Tree → Option Tree
  | l, d =>
    if (isMap l != isMap d) || (isSeq l != isSeq d) then
      match l with
      | .null => none
      | _ => some l
    else
      match l, d with
      | .mapping lv, .mapping dv =>
        let es := diffEntries lv dv
        if es.isEmpty then none else some (.mapping es)
      | .seq _, .seq _ => if pyEqTree l d then none else some l
      | _, _ =>
        if pyEqTree l d then none
        else
          match l with
          | .null => none
          | _ => some l

/-- The key loop of main.py lines 97-111: iterate the local mapping's
entries in order; a key absent from the default contributes its local
value unless that value is null; a key present in both contributes the
recursive diff when it is not None. -/
def diffEntries : List (String × Tree) → List (String × Tree) → List (String × Tree)
  | [], _ => []
  | (k, lv) :: rest, dv =>
    match keyLookup k dv with
    | none =>
      match lv with
      | .null => diffEntries rest dv
      | _ => (k, lv) :: diffEntries rest dv
    | some di =>
      match compare_and_extract_diff lv di with
      | some sub => (k, sub) :: diffEntries rest dv
      | none => diffEntries rest dv
end

/-- The Python runtime type of a loaded YAML value, as `type()` sees it in
main-ordered.py: dict, list, int, float, str, bool or NoneType.  Note that
`bool` is a distinct type from `int` even though True == 1. -/
inductive PyType where
  | dict | list | int | float | str | bool | nonetype
deriving DecidableEq, Repr

/-- Python `type()` on a loaded YAML value. -/
def typeOf : Tree → PyType
  | .mapping _ => .dict
  | .seq _ => .list
  | .scalar (.int _) => .int
  | .scalar (.float _) => .float
  | .scalar .nan => .float
  | .scalar (.str _) => .str
  | .scalar (.bool _) => .bool
  | .null => .nonetype

mutual
/-- Size of a tree, used as the termination measure for the embedding of
main-ordered.py and for induction. -/
def Tree.size : Tree → Nat
  | .mapping es => 1 + sizeEntries es
  | .seq es => 1 + sizeElems es
  | .scalar _ => 1
  | .null => 1

/-- Size of a mapping's entry list. -/
def sizeEntries : List (String × Tree) → Nat
  | [] => 0
  | (_, v) :: r => 1 + Tree.size v + sizeEntries r

/-- Size of a sequence's element list. -/
def sizeElems : List Tree → Nat
  | [] => 0
  | v :: r => 1 + Tree.size v + sizeElems r
end

mutual
/-- Embeds `compare_and_extract_diff` of
`src/helm-remove-defaults/main-ordered.py` (lines 60-121): if the Python
`type()` of the two values differs the local value is returned (None for
a null local); dicts are diffed by iterating `set(local) | set(default)`,
whose (implementation-defined) enumeration order is the parameter `ord`;
lists and primitives are compared atomically with Python `==`. -/
def compare_and_extract_diff_ordered (ord : List String → List String → List String) :
    Tree → Tree → Option Tree
  | l, d =>
    if typeOf l != typeOf d then
      match l with
      | .null => none
      | _ => some l
    else
      match l, d with
      | .mapping lv, .mapping dv =>
        let es := diffEntriesOrdered ord lv dv (ord (lv.map Prod.fst) (dv.map Prod.fst))
        if es.isEmpty then none else some (.mapping es)
      | .seq _, .seq _ => if pyEqTree l d then none else some l
      | _, _ => if pyEqTree l d then none else some l
termination_by l _ => (Tree.size l, 0)
decreasing_by
  apply Prod.Lex.left
  simp [Tree.size]

/-- The key loop of main-ordered.py lines 84-100, iterating the given
union key list: a key absent from the default contributes its local value
unless absent from the local dict or null there; a key absent from the
local dict is skipped; a key present in both contributes the recursive
diff when it is not None. -/
def diffEntriesOrdered (ord : List String → List String → List String)
    (lv dv : List (String × Tree)) : List String → List (String × Tree)
  | [] => []
  | k :: ks =>
    match keyLookup k dv with
    | none =>
      match keyLookup k lv with
      | some li =>
        match li with
        | .null => diffEntriesOrdered ord lv dv ks
        | _ => (k, li) :: diffEntriesOrdered ord lv dv ks
      | none => diffEntriesOrdered ord lv dv ks
    | some di =>
      match h : keyLookup k lv with
      | none => diffEntriesOrdered ord lv dv ks
      | some li =>
        match compare_and_extract_diff_ordered ord li di with
        | some sub => (k, sub) :: diffEntriesOrdered ord lv dv ks
        | none => diffEntriesOrdered ord lv dv ks
termination_by ks => (sizeEntries lv, ks.length)
decreasing_by
  all_goals first
    | (apply Prod.Lex.right; simp only [List.length_cons]; omega)
    | (apply Prod.Lex.left
       revert h
       induction lv with
       | nil => intro h; simp [keyLookup] at h
       | cons e rest ih =>
         intro h
         obtain ⟨k', w⟩ := e
         by_cases hk : k' = k
         · simp [keyLookup, hk] at h
           subst h
           simp [sizeEntries]
           omega
         · simp [keyLookup, hk] at h
           have := ih h
           simp [sizeEntries]
           omega)
end

/-- What one union key contributes to main-ordered.py's diff dict: the
local value for a non-null purely-local addition, the recursive diff for
a key present on both sides, nothing otherwise.  Processing a key in the
loop of main-ordered.py lines 84-100 appends exactly this contribution. -/
def diffKeyOrdered (ord : List String → List String → List String)
    (lv dv : List (String × Tree)) (k : String) : Option Tree :=
  match keyLookup k dv with
  | none =>
    match keyLookup k lv with
    | some li =>
      match li with
      | .null => none
      | _ => some li
    | none => none
  | some di =>
    match keyLookup k lv with
    | none => none
    | some li => compare_and_extract_diff_ordered ord li di

/-- The structural category of a tree node in the spec's sense: Mapping,
Sequence, Scalar or Null (spec glossary, "Kind"). -/
inductive Kind where
  | mapping | sequence | scalar | null
deriving DecidableEq, Repr

/-- Classification `kind()` of a tree node (spec §4.1). -/
def kind : Tree → Kind
  | .mapping _ => .mapping
  | .seq _ => .sequence
  | .scalar _ => .scalar
  | .null => .null

/-- Modelled from the spec: §4.1 structural equality on Scalars — "two
Scalars equal iff same logical type and same value", so an integer and a
float are never equal even when they denote the same number; the IEEE NaN
has no value equal to it, itself included. -/
def specEqScalar : Scalar → Scalar → Bool
  | .nan, _ => false
  | _, .nan => false
  | .int n, .int m => n = m
  | .float p, .float q => p = q
  | .str s, .str t => s = t
  | .bool a, .bool b => a = b
  | _, _ => false

mutual
/-- Modelled from the spec: §4.1 structural equality on Trees — Scalars by
logical type and value, Sequences by length and pairwise-equal elements,
Mappings by key set and per-key equal values (order-independent). -/
def specEqTree : Tree → Tree → Bool
  | .mapping a, .mapping b => a.length = b.length && specEqEntries a b
  | .seq a, .seq b => a.length = b.length && specEqElems a b
  | .scalar x, .scalar y => specEqScalar x y
  | .null, .null => true
  | _, _ => false

/-- Spec structural equality, entry side: every key of the first Mapping
is present in the second with a structurally equal value. -/
def specEqEntries : List (String × Tree) → List (String × Tree) → Bool
  | [], _ => true
  | (k, v) :: rest, b =>
    (match keyLookup k b with
     | some w => specEqTree v w
     | none => false) && specEqEntries rest b

/-- Spec structural equality, element side: pairwise comparison (lengths
are checked by the caller). -/
def specEqElems : List Tree → List Tree → Bool
  | [], _ => true
  | _, [] => true
  | x :: xs, y :: ys => specEqTree x y && specEqElems xs ys
end

mutual
/-- Modelled from the spec: the override-wins-on-conflict merge of §8
("Round-trip").  Two Mappings merge key by key; in every other case the
override value replaces the base value wholesale. -/
def mergeOverride : Tree → Tree → Tree
  | .mapping bs, .mapping os =>
    .mapping (mergeInto bs os ++ os.filter (fun p => (keyLookup p.1 bs).isNone))
  | _, ov => ov

/-- Merge step over the base Mapping's entries: a base key that the
override also carries is merged recursively, any other base key keeps its
base value.  Override-only keys are appended afterwards by
`mergeOverride`. -/
def mergeInto : List (String × Tree) → List (String × Tree) → List (String × Tree)
  | [], _ => []
  | (k, v) :: rest, os =>
    (k, match keyLookup k os with
        | some w => mergeOverride v w
        | none => v) :: mergeInto rest os
end

mutual
/-- The round-trip agreement relation of §8 with the code's value
equality at the leaves: `agreeExc local merged` holds when `merged`
matches `local` except that (a) at a Mapping node `merged` may carry extra
keys (keys present only in the default) and (b) wherever `local` is Null
anything is accepted (the dropped-override cases).  Scalar and Sequence
leaves are compared with Python `==`. -/
def agreeExc : Tree → Tree → Bool
  | .null, _ => true
  | .mapping ls, .mapping ms => agreeEntriesExc ls ms
  | .mapping _, _ => false
  | l, m => pyEqTree l m

/-- Entry side of `agreeExc`: each local entry must be matched in the
merged Mapping, except that a Null local value is always accepted. -/
def agreeEntriesExc : List (String × Tree) → List (String × Tree) → Bool
  | [], _ => true
  | (k, v) :: rest, ms =>
    (match keyLookup k ms with
     | some w => agreeExc v w
     | none => v.isNull) && agreeEntriesExc rest ms
end

mutual
/-- The round-trip agreement relation exactly as the spec words it: like
`agreeExc` but with the spec's type-sensitive structural equality (§4.1)
at Scalar and Sequence leaves. -/
def agreeSpecExc : Tree → Tree → Bool
  | .null, _ => true
  | .mapping ls, .mapping ms => agreeSpecEntries ls ms
  | .mapping _, _ => false
  | l, m => specEqTree l m

/-- Entry side of `agreeSpecExc`. -/
def agreeSpecEntries : List (String × Tree) → List (String × Tree) → Bool
  | [], _ => true
  | (k, v) :: rest, ms =>
    (match keyLookup k ms with
     | some w => agreeSpecExc v w
     | none => v.isNull) && agreeSpecEntries rest ms
end

/-- Uniqueness of the keys of one entry list (spec §3 invariant: "a
Mapping's keys are unique"). -/
def keysNodup : List (String × Tree) → Bool
  | [] => true
  | (k, _) :: r => (keyLookup k r).isNone && keysNodup r

mutual
/-- The spec §3 Mapping invariant, recursively: every Mapping anywhere in
the tree has pairwise distinct keys.  Python dictionaries satisfy this by
construction, so every tree produced by the YAML codecs lies in this
domain. -/
def nodupKeys : Tree → Bool
  | .mapping es => keysNodup es && nodupEntries es
  | .seq es => nodupElems es
  | .scalar _ => true
  | .null => true

/-- `nodupKeys` over a Mapping's values. -/
def nodupEntries : List (String × Tree) → Bool
  | [] => true
  | (_, v) :: r => nodupKeys v && nodupEntries r

/-- `nodupKeys` over a Sequence's elements. -/
def nodupElems : List Tree → Bool
  | [] => true
  | v :: r => nodupKeys v && nodupElems r
end

mutual
/-- Whether a tree contains no float NaN.  On NaN leaves Python `==` is
not reflexive, so self-comparison and round-trip agreement only hold on
NaN-free documents. -/
def nanFree : Tree → Bool
  | .mapping es => nanFreeEntries es
  | .seq es => nanFreeElems es
  | .scalar a => ! a.isNan
  | .null => true

/-- `nanFree` over a Mapping's values. -/
def nanFreeEntries : List (String × Tree) → Bool
  | [] => true
  | (_, v) :: r => nanFree v && nanFreeEntries r

/-- `nanFree` over a Sequence's elements. -/
def nanFreeElems : List Tree → Bool
  | [] => true
  | v :: r => nanFree v && nanFreeElems r
end

/-- Whether two scalars carry the same Python runtime type (NaN is of
Python type float). -/
def sameScalarType : Scalar → Scalar → Bool
  | .int _, .int _ => true
  | .float _, .float _ => true
  | .float _, .nan => true
  | .nan, .float _ => true
  | .nan, .nan => true
  | .str _, .str _ => true
  | .bool _, .bool _ => true
  | _, _ => false

mutual
/-- No pair of scalars that the two diff implementations both compare is
`==`-equal while having different Python types (such as 1 versus 1.0):
the condition under which the `type()`-based guard of main-ordered.py and
the value-based comparison of main.py agree. -/
def typeAligned : Tree → Tree → Bool
  | .scalar a, .scalar b => !pyEqScalar a b || sameScalarType a b
  | .mapping ls, .mapping ds => typeAlignedEntries ls ds
  | _, _ => true

/-- `typeAligned` on the local entries against the default Mapping. -/
def typeAlignedEntries : List (String × Tree) → List (String × Tree) → Bool
  | [], _ => true
  | (k, v) :: rest, ds =>
    (match keyLookup k ds with
     | some w => typeAligned v w
     | none => true) && typeAlignedEntries rest ds
end

/-- One admissible enumeration order for `set(local) | set(default)`:
local keys first in their order, then default-only keys. -/
def localFirstOrd (ls ds : List String) : List String :=
  ls ++ ds.filter (fun k => !(ls.contains k))

/-- Another admissible enumeration order for the key-set union, listing
the keys in reverse: Python specifies no order for set iteration, so this
order is as legitimate as any other. -/
def revOrd (ls ds : List String) : List String :=
  (localFirstOrd ls ds).reverse

/-- A set-iteration order covers every local key — true of every
enumeration of `set(local) | set(default)`, whatever its order. -/
def ordComplete (ord : List String → List String → List String) : Prop :=
  ∀ ls ds k, k ∈ ls → k ∈ ord ls ds

/-- How a node's Python type determines its spec kind. -/
def kindOfType : PyType → Kind
  | .dict => .mapping
  | .list => .sequence
  | .nonetype => .null
  | _ => .scalar

/-- The entry list of a Mapping node (empty for other nodes). -/
def entriesOf : Tree → List (String × Tree)
  | .mapping es => es
  | _ => []

mutual
/-- The main.py diff with Python's exception behaviour made explicit: the
result is an error exactly where the Python code would raise.  The only
operation in `compare_and_extract_diff` that could raise is calling
`default_val.get(key)` on a non-dict default inside the mapping branch;
that branch is modelled by the AttributeError arm below. -/
def compareE : Tree → Tree → Except String (Option Tree)
  | l, d =>
    if (isMap l != isMap d) || (isSeq l != isSeq d) then
      .ok (match l with
           | .null => none
           | _ => some l)
    else
      match l, d with
      | .mapping lv, .mapping dv =>
        match diffEntriesE lv dv with
        | .error e => .error e
        | .ok es => .ok (if es.isEmpty then none else some (.mapping es))
      | .mapping _, _ => .error "AttributeError"
      | .seq _, _ => .ok (if pyEqTree l d then none else some l)
      | _, _ =>
        .ok (if pyEqTree l d then none
             else match l with
                  | .null => none
                  | _ => some l)

/-- Exception-explicit version of `diffEntries`. -/
def diffEntriesE : List (String × Tree) → List (String × Tree) →
    Except String (List (String × Tree))
  | [], _ => .ok []
  | (k, lv) :: rest, dv =>
    match keyLookup k dv with
    | none =>
      match diffEntriesE rest dv with
      | .error e => .error e
      | .ok es => .ok (match lv with
                       | .null => es
                       | _ => (k, lv) :: es)
    | some di =>
      match compareE lv di with
      | .error e => .error e
      | .ok sub =>
        match diffEntriesE rest dv with
        | .error e => .error e
        | .ok es => .ok (match sub with
                         | some s => (k, s) :: es
                         | none => es)
end

mutual
/-- The main-ordered.py diff with Python's exception behaviour made
explicit, in the style of `compareE`: the AttributeError arm marks where
`.get` would be called on a non-dict value. -/
def compareOrderedE (ord : List String → List String → List String) :
    Tree → Tree → Except String (Option Tree)
  | l, d =>
    if typeOf l != typeOf d then
      .ok (match l with
           | .null => none
           | _ => some l)
    else
      match l, d with
      | .mapping lv, .mapping dv =>
        match diffEntriesOrderedE ord lv dv (ord (lv.map Prod.fst) (dv.map Prod.fst)) with
        | .error e => .error e
        | .ok es => .ok (if es.isEmpty then none else some (.mapping es))
      | .mapping _, _ => .error "AttributeError"
      | .seq _, _ => .ok (if pyEqTree l d then none else some l)
      | _, _ => .ok (if pyEqTree l d then none else some l)
termination_by l _ => (Tree.size l, 0)
decreasing_by
  apply Prod.Lex.left
  simp [Tree.size]

/-- Exception-explicit version of `diffEntriesOrdered`. -/
def diffEntriesOrderedE (ord : List String → List String → List String)
    (lv dv : List (String × Tree)) : List String →
    Except String (List (String × Tree))
  | [] => .ok []
  | k :: ks =>
    match keyLookup k dv with
    | none =>
      match diffEntriesOrderedE ord lv dv ks with
      | .error e => .error e
      | .ok es => .ok (match keyLookup k lv with
                       | some li =>
                         match li with
                         | .null => es
                         | _ => (k, li) :: es
                       | none => es)
    | some di =>
      match h : keyLookup k lv with
      | none =>
        diffEntriesOrderedE ord lv dv ks
      | some li =>
        match compareOrderedE ord li di with
        | .error e => .error e
        | .ok sub =>
          match diffEntriesOrderedE ord lv dv ks with
          | .error e => .error e
          | .ok es => .ok (match sub with
                           | some s => (k, s) :: es
                           | none => es)
termination_by ks => (sizeEntries lv, ks.length)
decreasing_by
  all_goals first
    | (apply Prod.Lex.right; simp only [List.length_cons]; omega)
    | (apply Prod.Lex.left
       revert h
       induction lv with
       | nil => intro h; simp [keyLookup] at h
       | cons e rest ih =>
         intro h
         obtain ⟨k', w⟩ := e
         by_cases hk : k' = k
         · simp [keyLookup, hk] at h
           subst h
           simp [sizeEntries]
           omega
         · simp [keyLookup, hk] at h
           have := ih h
           simp [sizeEntries]
           omega)
end

theorem size_pos (t : Tree) : 1 ≤ Tree.size t := by
  cases t <;> simp [Tree.size]

theorem keyLookup_size {k : String} {es : List (String × Tree)} {v : Tree}
    (h : keyLookup k es = some v) : Tree.size v < sizeEntries es := by
  induction es with
  | nil => simp [keyLookup] at h
  | cons e rest ih =>
    obtain ⟨k', w⟩ := e
    by_cases hk : k' = k
    · simp [keyLookup, hk] at h
      subst h
      simp [sizeEntries]
      omega
    · simp [keyLookup, hk] at h
      have := ih h
      simp [sizeEntries]
      omega

theorem mem_entries_size {k : String} {v : Tree} {es : List (String × Tree)}
    (h : (k, v) ∈ es) : Tree.size v < sizeEntries es := by
  induction es with
  | nil => simp at h
  | cons e rest ih =>
    rcases List.mem_cons.mp h with h1 | h1
    · obtain ⟨e1, e2⟩ := Prod.mk.injEq .. ▸ congrArg id h1
      cases h1
      simp [sizeEntries]
      omega
    · have := ih h1
      obtain ⟨k', w⟩ := e
      simp [sizeEntries]
      omega

theorem mem_elems_size {v : Tree} {es : List Tree}
    (h : v ∈ es) : Tree.size v < sizeElems es := by
  induction es with
  | nil => simp at h
  | cons e rest ih =>
    rcases List.mem_cons.mp h with h1 | h1
    · cases h1
      simp [sizeElems]
      omega
    · have := ih h1
      simp [sizeElems]
      omega

theorem keyLookup_mem {k : String} {v : Tree} {es : List (String × Tree)}
    (h : keyLookup k es = some v) : (k, v) ∈ es := by
  induction es with
  | nil => simp [keyLookup] at h
  | cons e rest ih =>
    obtain ⟨k', w⟩ := e
    by_cases hk : k' = k
    · simp [keyLookup, hk] at h
      simp [hk, h]
    · simp [keyLookup, hk] at h
      exact List.mem_cons_of_mem _ (ih h)

theorem keyLookup_eq_none {k : String} {es : List (String × Tree)}
    (h : k ∉ es.map Prod.fst) : keyLookup k es = none := by
  induction es with
  | nil => rfl
  | cons e rest ih =>
    obtain ⟨k', w⟩ := e
    rw [List.map_cons] at h
    have h1 : ¬ k' = k := fun hc => h (by simp [hc])
    have h2 : k ∉ rest.map Prod.fst := fun hc => h (List.mem_cons_of_mem _ hc)
    simp [keyLookup, h1, ih h2]

theorem keyLookup_none_not_mem {k : String} {es : List (String × Tree)}
    (h : keyLookup k es = none) : k ∉ es.map Prod.fst := by
  induction es with
  | nil => simp
  | cons e rest ih =>
    obtain ⟨k', w⟩ := e
    by_cases hk : k' = k
    · simp [keyLookup, hk] at h
    · simp [keyLookup, hk] at h
      simp [ih h]
      intro hc
      exact absurd hc.symm hk

theorem mem_keyLookup_of_nodup {k : String} {v : Tree} {es : List (String × Tree)}
    (hnd : keysNodup es = true) (h : (k, v) ∈ es) : keyLookup k es = some v := by
  induction es with
  | nil => simp at h
  | cons e rest ih =>
    obtain ⟨k', w⟩ := e
    simp [keysNodup, Bool.and_eq_true, Option.isNone_iff_eq_none] at hnd
    rcases List.mem_cons.mp h with h1 | h1
    · obtain ⟨hk, hv⟩ := Prod.mk.injEq .. ▸ h1
      cases h1
      simp [keyLookup]
    · by_cases hk : k' = k
      · subst hk
        have : (k', v) ∈ rest := h1
        have hmem : k' ∈ rest.map Prod.fst := by
          exact List.mem_map.mpr ⟨(k', v), this, rfl⟩
        exact absurd hmem (keyLookup_none_not_mem hnd.1)
      · simp [keyLookup, hk]
        exact ih hnd.2 h1

theorem keyLookup_append {k : String} (xs ys : List (String × Tree)) :
    keyLookup k (xs ++ ys) =
      match keyLookup k xs with
      | some v => some v
      | none => keyLookup k ys := by
  induction xs with
  | nil => simp [keyLookup]
  | cons e rest ih =>
    obtain ⟨k', w⟩ := e
    by_cases hk : k' = k <;> simp [keyLookup, hk, ih]

theorem keyLookup_mergeInto {k : String} (bs os : List (String × Tree)) :
    keyLookup k (mergeInto bs os) =
      match keyLookup k bs with
      | none => none
      | some v =>
        some (match keyLookup k os with
              | some w => mergeOverride v w
              | none => v) := by
  induction bs with
  | nil => simp [mergeInto, keyLookup]
  | cons e rest ih =>
    obtain ⟨k', w⟩ := e
    by_cases hk : k' = k <;> simp [mergeInto, keyLookup, hk, ih]

theorem keyLookup_filter_of_none {k : String} {bs : List (String × Tree)}
    (os : List (String × Tree)) (h : keyLookup k bs = none) :
    keyLookup k (os.filter (fun p => (keyLookup p.1 bs).isNone)) = keyLookup k os := by
  induction os with
  | nil => rfl
  | cons e rest ih =>
    obtain ⟨k', w⟩ := e
    by_cases hk : k' = k
    · subst hk
      simp [List.filter_cons, h, keyLookup]
    · by_cases hp : (keyLookup k' bs).isNone
      · simp [List.filter_cons, hp, keyLookup, hk, ih]
      · simp [List.filter_cons, hp, keyLookup, hk, ih]

/-- Looking a key up in the spec-modelled merge of two Mappings: a base
key is merged (recursively if the override also carries it), an
override-only key keeps its override value. -/
theorem keyLookup_mergeOverride {k : String} (bs os : List (String × Tree)) :
    keyLookup k (mergeInto bs os ++ os.filter (fun p => (keyLookup p.1 bs).isNone)) =
      match keyLookup k bs with
      | some v =>
        some (match keyLookup k os with
              | some w => mergeOverride v w
              | none => v)
      | none => keyLookup k os := by
  rw [keyLookup_append, keyLookup_mergeInto]
  cases h : keyLookup k bs with
  | some v => simp
  | none => simp [keyLookup_filter_of_none os h]

theorem nodupKeys_mapping {lv : List (String × Tree)}
    (h : nodupKeys (.mapping lv) = true) : keysNodup lv = true ∧ nodupEntries lv = true := by
  simpa [nodupKeys, Bool.and_eq_true] using h

theorem nodupEntries_mem {lv : List (String × Tree)} {k : String} {v : Tree}
    (h : nodupEntries lv = true) (hm : (k, v) ∈ lv) : nodupKeys v = true := by
  induction lv with
  | nil => simp at hm
  | cons e rest ih =>
    obtain ⟨k', w⟩ := e
    simp [nodupEntries, Bool.and_eq_true] at h
    rcases List.mem_cons.mp hm with h1 | h1
    · cases h1
      exact h.1
    · exact ih h.2 h1

theorem nodupElems_mem {es : List Tree} {v : Tree}
    (h : nodupElems es = true) (hm : v ∈ es) : nodupKeys v = true := by
  induction es with
  | nil => simp at hm
  | cons e rest ih =>
    simp [nodupElems, Bool.and_eq_true] at h
    rcases List.mem_cons.mp hm with h1 | h1
    · cases h1
      exact h.1
    · exact ih h.2 h1

theorem nanFree_mapping {lv : List (String × Tree)}
    (h : nanFree (.mapping lv) = true) : nanFreeEntries lv = true := by
  simpa [nanFree] using h

theorem nanFreeEntries_mem {lv : List (String × Tree)} {k : String} {v : Tree}
    (h : nanFreeEntries lv = true) (hm : (k, v) ∈ lv) : nanFree v = true := by
  induction lv with
  | nil => simp at hm
  | cons e rest ih =>
    obtain ⟨k', w⟩ := e
    simp [nanFreeEntries, Bool.and_eq_true] at h
    rcases List.mem_cons.mp hm with h1 | h1
    · cases h1
      exact h.1
    · exact ih h.2 h1

theorem nanFreeElems_mem {es : List Tree} {v : Tree}
    (h : nanFreeElems es = true) (hm : v ∈ es) : nanFree v = true := by
  induction es with
  | nil => simp at hm
  | cons e rest ih =>
    simp [nanFreeElems, Bool.and_eq_true] at h
    rcases List.mem_cons.mp hm with h1 | h1
    · cases h1
      exact h.1
    · exact ih h.2 h1

theorem pyEqScalar_refl {a : Scalar} (h : a.isNan = false) : pyEqScalar a a = true := by
  cases a with
  | nan => simp [Scalar.isNan] at h
  | int n => simp [pyEqScalar]
  | float q => simp [pyEqScalar]
  | str s => simp [pyEqScalar]
  | bool b => simp [pyEqScalar]

theorem pyEqEntries_of_forall {sub full : List (String × Tree)}
    (h : ∀ k v, (k, v) ∈ sub → keyLookup k full = some v ∧ pyEqTree v v = true) :
    pyEqEntries sub full = true := by
  induction sub with
  | nil => rfl
  | cons e rest ih =>
    obtain ⟨k, v⟩ := e
    obtain ⟨h1, h2⟩ := h k v (List.mem_cons_self _ _)
    simp [pyEqEntries, h1, h2]
    exact ih (fun k' v' hm => h k' v' (List.mem_cons_of_mem _ hm))

theorem pyEqElems_of_forall {es : List Tree}
    (h : ∀ v, v ∈ es → pyEqTree v v = true) : pyEqElems es es = true := by
  induction es with
  | nil => rfl
  | cons e rest ih =>
    simp [pyEqElems, h e (List.mem_cons_self _ _)]
    exact ih (fun v hm => h v (List.mem_cons_of_mem _ hm))

/-- Python `==` is reflexive on NaN-free trees satisfying the unique-keys
invariant (NaN breaks reflexivity outright; on duplicate-key entry lists,
which no Python dict produces, the embedded dict comparison could compare
an entry against an earlier duplicate). -/
theorem pyEqTree_refl : ∀ n (t : Tree), Tree.size t ≤ n → nodupKeys t = true →
    nanFree t = true → pyEqTree t t = true := by
  intro n
  induction n with
  | zero =>
    intro t ht
    have := size_pos t
    omega
  | succ n ih =>
    intro t ht hnd hnf
    cases t with
    | mapping lv =>
      obtain ⟨h1, h2⟩ := nodupKeys_mapping hnd
      have h3 : nanFreeEntries lv = true := nanFree_mapping hnf
      simp [pyEqTree]
      apply pyEqEntries_of_forall
      intro k v hm
      refine ⟨mem_keyLookup_of_nodup h1 hm, ?_⟩
      have hsz : Tree.size v < sizeEntries lv := mem_entries_size hm
      have hsz2 : Tree.size (Tree.mapping lv) = 1 + sizeEntries lv := by simp [Tree.size]
      exact ih v (by omega) (nodupEntries_mem h2 hm) (nanFreeEntries_mem h3 hm)
    | seq es =>
      simp [pyEqTree]
      apply pyEqElems_of_forall
      intro v hm
      have hsz : Tree.size v < sizeElems es := mem_elems_size hm
      have hsz2 : Tree.size (Tree.seq es) = 1 + sizeElems es := by simp [Tree.size]
      exact ih v (by omega) (nodupElems_mem (by simpa [nodupKeys] using hnd) hm)
        (nanFreeElems_mem (by simpa [nanFree] using hnf) hm)
    | scalar a =>
      have ha : Scalar.isNan a = false := by simpa [nanFree] using hnf
      simp [pyEqTree, pyEqScalar_refl ha]
    | null => rfl

theorem compare_null_left (d : Tree) : compare_and_extract_diff .null d = none := by
  cases d <;> rfl

theorem compareOrdered_null_left (ord : List String → List String → List String)
    (d : Tree) : compare_and_extract_diff_ordered ord .null d = none := by
  cases d with
  | mapping es => simp [compare_and_extract_diff_ordered, typeOf]
  | seq es => simp [compare_and_extract_diff_ordered, typeOf]
  | scalar a => cases a <;> simp [compare_and_extract_diff_ordered, typeOf]
  | null => simp [compare_and_extract_diff_ordered, typeOf, pyEqTree]

theorem compare_scalar_scalar (a b : Scalar) :
    compare_and_extract_diff (.scalar a) (.scalar b) =
      if pyEqScalar a b then none else some (.scalar a) := by
  simp [compare_and_extract_diff, isMap, isSeq, pyEqTree]

theorem compare_seq_seq (a b : List Tree) :
    compare_and_extract_diff (.seq a) (.seq b) =
      if pyEqTree (.seq a) (.seq b) then none else some (.seq a) := by
  simp [compare_and_extract_diff, isMap, isSeq]

theorem compare_mapping_mapping (lv dv : List (String × Tree)) :
    compare_and_extract_diff (.mapping lv) (.mapping dv) =
      if (diffEntries lv dv).isEmpty then none
      else some (.mapping (diffEntries lv dv)) := by
  simp [compare_and_extract_diff, isMap, isSeq]

theorem diffEntries_lookup_none {k : String} {lv : List (String × Tree)}
    (dv : List (String × Tree)) (h : keyLookup k lv = none) :
    keyLookup k (diffEntries lv dv) = none := by
  induction lv with
  | nil => rfl
  | cons e rest ih =>
    obtain ⟨k', v⟩ := e
    by_cases hk : k' = k
    · simp [keyLookup, hk] at h
    · simp [keyLookup, hk] at h
      have hrec := ih h
      cases hdv : keyLookup k' dv with
      | none => cases v <;> simp [diffEntries, hdv, keyLookup, hk, hrec]
      | some di =>
        cases hc : compare_and_extract_diff v di with
        | some sub => simp [diffEntries, hdv, hc, keyLookup, hk, hrec]
        | none => simp [diffEntries, hdv, hc, hrec]

/-- What the main.py diff Mapping contains at each key (under the
unique-keys invariant): nothing for keys absent from local, the local
value for non-null purely-local additions (nothing for null ones), and
the recursive diff for keys present on both sides. -/
theorem diffEntries_lookup {k : String} {lv : List (String × Tree)}
    (dv : List (String × Tree)) (hnd : keysNodup lv = true) :
    keyLookup k (diffEntries lv dv) =
      match keyLookup k lv with
      | none => none
      | some v =>
        match keyLookup k dv with
        | none =>
          match v with
          | .null => none
          | _ => some v
        | some di => compare_and_extract_diff v di := by
  induction lv with
  | nil => rfl
  | cons e rest ih =>
    obtain ⟨k', v'⟩ := e
    simp only [keysNodup, Bool.and_eq_true, Option.isNone_iff_eq_none] at hnd
    by_cases hk : k' = k
    · subst hk
      have hrest : keyLookup k' rest = none := hnd.1
      cases hdv : keyLookup k' dv with
      | none =>
        cases v' <;>
          simp [diffEntries, hdv, keyLookup, diffEntries_lookup_none dv hrest]
      | some di =>
        cases hc : compare_and_extract_diff v' di with
        | some sub => simp [diffEntries, hdv, hc, keyLookup]
        | none => simp [diffEntries, hdv, hc, keyLookup, diffEntries_lookup_none dv hrest]
    · have ihr := ih hnd.2
      cases hdv : keyLookup k' dv with
      | none => cases v' <;> simp [diffEntries, hdv, keyLookup, hk, ihr]
      | some di =>
        cases hc : compare_and_extract_diff v' di with
        | some sub => simp [diffEntries, hdv, hc, keyLookup, hk, ihr]
        | none => simp [diffEntries, hdv, hc, keyLookup, hk, ihr]

theorem diffEntries_keys_sublist (lv dv : List (String × Tree)) :
    ((diffEntries lv dv).map Prod.fst).Sublist (lv.map Prod.fst) := by
  induction lv with
  | nil => simp [diffEntries]
  | cons e rest ih =>
    obtain ⟨k, v⟩ := e
    cases hdv : keyLookup k dv with
    | none =>
      cases v <;> simp [diffEntries, hdv] <;>
        first
          | exact ih
          | exact ih.cons _
    | some di =>
      cases hc : compare_and_extract_diff v di with
      | some sub =>
        simp [diffEntries, hdv, hc]
        exact ih
      | none =>
        simp [diffEntries, hdv, hc]
        exact ih.cons _

theorem mergeOverride_nonmapping {d l : Tree} (h : isMap l = false) :
    mergeOverride d l = l := by
  cases d <;> cases l <;> simp_all [mergeOverride, isMap]

/-- Unfolding of the round-trip agreement relation over a local Mapping's
entries. -/
theorem agreeEntriesExc_iff {ls ms : List (String × Tree)} :
    agreeEntriesExc ls ms = true ↔
      ∀ k v, (k, v) ∈ ls →
        (∀ w, keyLookup k ms = some w → agreeExc v w = true) ∧
        (keyLookup k ms = none → v.isNull = true) := by
  induction ls with
  | nil => simp [agreeEntriesExc]
  | cons e rest ih =>
    obtain ⟨k, v⟩ := e
    cases hms : keyLookup k ms with
    | some w =>
      simp only [agreeEntriesExc, hms, Bool.and_eq_true]
      rw [ih]
      constructor
      · rintro ⟨h1, h2⟩ k' v' hm
        rcases List.mem_cons.mp hm with he | he
        · rw [Prod.mk.injEq] at he
          obtain ⟨rfl, rfl⟩ := he
          refine ⟨fun w' hw' => ?_, fun hn => ?_⟩
          · rw [hms] at hw'
            cases hw'
            exact h1
          · rw [hms] at hn
            cases hn
        · exact h2 k' v' he
      · intro h
        exact ⟨(h k v (List.mem_cons_self _ _)).1 w hms,
          fun k' v' hm => h k' v' (List.mem_cons_of_mem _ hm)⟩
    | none =>
      simp only [agreeEntriesExc, hms, Bool.and_eq_true]
      rw [ih]
      constructor
      · rintro ⟨h1, h2⟩ k' v' hm
        rcases List.mem_cons.mp hm with he | he
        · rw [Prod.mk.injEq] at he
          obtain ⟨rfl, rfl⟩ := he
          refine ⟨fun w' hw' => ?_, fun _ => h1⟩
          · rw [hms] at hw'
            cases hw'
        · exact h2 k' v' he
      · intro h
        exact ⟨(h k v (List.mem_cons_self _ _)).2 hms,
          fun k' v' hm => h k' v' (List.mem_cons_of_mem _ hm)⟩

theorem agreeExc_refl : ∀ n (t : Tree), Tree.size t ≤ n → nodupKeys t = true →
    nanFree t = true → agreeExc t t = true := by
  intro n
  induction n with
  | zero =>
    intro t ht
    have := size_pos t
    omega
  | succ n ih =>
    intro t ht hnd hnf
    cases t with
    | mapping lv =>
      obtain ⟨h1, h2⟩ := nodupKeys_mapping hnd
      have h3 : nanFreeEntries lv = true := nanFree_mapping hnf
      simp only [agreeExc]
      rw [agreeEntriesExc_iff]
      intro k v hm
      have hkv := mem_keyLookup_of_nodup h1 hm
      refine ⟨fun w hw => ?_, fun hn => ?_⟩
      · rw [hkv] at hw
        cases hw
        have hsz : Tree.size v < sizeEntries lv := mem_entries_size hm
        have hsz2 : Tree.size (Tree.mapping lv) = 1 + sizeEntries lv := by simp [Tree.size]
        exact ih v (by omega) (nodupEntries_mem h2 hm) (nanFreeEntries_mem h3 hm)
      · rw [hkv] at hn
        cases hn
    | seq es =>
      simpa [agreeExc] using pyEqTree_refl (Tree.size (Tree.seq es)) _ le_rfl hnd hnf
    | scalar a =>
      have ha : Scalar.isNan a = false := by simpa [nanFree] using hnf
      simp [agreeExc, pyEqTree, pyEqScalar_refl ha]
    | null => rfl

theorem mergeOverride_base_nonmapping {d ov : Tree} (h : isMap d = false) :
    mergeOverride d ov = ov := by
  cases d <;> cases ov <;> simp_all [mergeOverride, isMap]

/-- Master round-trip lemma for main.py: on unique-keyed local trees, a
None diff means the local tree agrees with the default, and a Some diff
merged back onto the default agrees with the local tree — agreement
modulo default-only keys and dropped nulls, with Python value equality at
the leaves. -/
theorem roundtrip_aux : ∀ n (l d : Tree), Tree.size l ≤ n → nodupKeys l = true →
    nanFree l = true →
    (compare_and_extract_diff l d = none → agreeExc l d = true) ∧
    (∀ s, compare_and_extract_diff l d = some s →
      agreeExc l (mergeOverride d s) = true) := by
  intro n
  induction n with
  | zero =>
    intro l d h
    have := size_pos l
    omega
  | succ n ih =>
    intro l d hsz hnd hnf
    cases l with
    | null =>
      refine ⟨fun _ => rfl, fun s hs => ?_⟩
      rw [compare_null_left] at hs
      cases hs
    | scalar a =>
      have ha : Scalar.isNan a = false := by simpa [nanFree] using hnf
      cases d with
      | mapping dv =>
        refine ⟨fun h => ?_, fun s hs => ?_⟩
        · simp [compare_and_extract_diff, isMap, isSeq] at h
        · simp [compare_and_extract_diff, isMap, isSeq] at hs
          subst hs
          rw [mergeOverride_nonmapping (by simp [isMap])]
          simp [agreeExc, pyEqTree, pyEqScalar_refl ha]
      | seq ds =>
        refine ⟨fun h => ?_, fun s hs => ?_⟩
        · simp [compare_and_extract_diff, isMap, isSeq] at h
        · simp [compare_and_extract_diff, isMap, isSeq] at hs
          subst hs
          rw [mergeOverride_nonmapping (by simp [isMap])]
          simp [agreeExc, pyEqTree, pyEqScalar_refl ha]
      | scalar b =>
        rw [compare_scalar_scalar]
        by_cases hpe : pyEqScalar a b = true
        · rw [if_pos hpe]
          refine ⟨fun _ => ?_, fun s hs => ?_⟩
          · simp [agreeExc, pyEqTree, hpe]
          · cases hs
        · rw [if_neg hpe]
          refine ⟨fun h => ?_, fun s hs => ?_⟩
          · cases h
          injection hs with hs
          subst hs
          rw [mergeOverride_nonmapping (by simp [isMap])]
          simp [agreeExc, pyEqTree, pyEqScalar_refl ha]
      | null =>
        refine ⟨fun h => ?_, fun s hs => ?_⟩
        · simp [compare_and_extract_diff, isMap, isSeq, pyEqTree] at h
        · simp [compare_and_extract_diff, isMap, isSeq, pyEqTree] at hs
          subst hs
          rw [mergeOverride_nonmapping (by simp [isMap])]
          simp [agreeExc, pyEqTree, pyEqScalar_refl ha]
    | seq es =>
      have hrefl : agreeExc (Tree.seq es) (Tree.seq es) = true :=
        agreeExc_refl (Tree.size (Tree.seq es)) _ le_rfl hnd hnf
      cases d with
      | mapping dv =>
        refine ⟨fun h => ?_, fun s hs => ?_⟩
        · simp [compare_and_extract_diff, isMap, isSeq] at h
        · simp [compare_and_extract_diff, isMap, isSeq] at hs
          subst hs
          rw [mergeOverride_nonmapping (by simp [isMap])]
          exact hrefl
      | seq ds =>
        rw [compare_seq_seq]
        by_cases hpe : pyEqTree (Tree.seq es) (Tree.seq ds) = true
        · rw [if_pos hpe]
          refine ⟨fun _ => ?_, fun s hs => ?_⟩
          · simpa [agreeExc] using hpe
          · cases hs
        · rw [if_neg hpe]
          refine ⟨fun h => ?_, fun s hs => ?_⟩
          · cases h
          injection hs with hs
          subst hs
          rw [mergeOverride_nonmapping (by simp [isMap])]
          exact hrefl
      | scalar b =>
        refine ⟨fun h => ?_, fun s hs => ?_⟩
        · simp [compare_and_extract_diff, isMap, isSeq] at h
        · simp [compare_and_extract_diff, isMap, isSeq] at hs
          subst hs
          rw [mergeOverride_nonmapping (by simp [isMap])]
          exact hrefl
      | null =>
        refine ⟨fun h => ?_, fun s hs => ?_⟩
        · simp [compare_and_extract_diff, isMap, isSeq] at h
        · simp [compare_and_extract_diff, isMap, isSeq] at hs
          subst hs
          rw [mergeOverride_nonmapping (by simp [isMap])]
          exact hrefl
    | mapping lv =>
      obtain ⟨h1, h2⟩ := nodupKeys_mapping hnd
      have h3 : nanFreeEntries lv = true := nanFree_mapping hnf
      have hszm : Tree.size (Tree.mapping lv) = 1 + sizeEntries lv := by simp [Tree.size]
      have hrefl : agreeExc (Tree.mapping lv) (Tree.mapping lv) = true :=
        agreeExc_refl (Tree.size (Tree.mapping lv)) _ le_rfl hnd hnf
      cases d with
      | seq ds =>
        refine ⟨fun h => ?_, fun s hs => ?_⟩
        · simp [compare_and_extract_diff, isMap, isSeq] at h
        · simp [compare_and_extract_diff, isMap, isSeq] at hs
          subst hs
          rw [mergeOverride_base_nonmapping (by simp [isMap])]
          exact hrefl
      | scalar b =>
        refine ⟨fun h => ?_, fun s hs => ?_⟩
        · simp [compare_and_extract_diff, isMap, isSeq] at h
        · simp [compare_and_extract_diff, isMap, isSeq] at hs
          subst hs
          rw [mergeOverride_base_nonmapping (by simp [isMap])]
          exact hrefl
      | null =>
        refine ⟨fun h => ?_, fun s hs => ?_⟩
        · simp [compare_and_extract_diff, isMap, isSeq] at h
        · simp [compare_and_extract_diff, isMap, isSeq] at hs
          subst hs
          rw [mergeOverride_base_nonmapping (by simp [isMap])]
          exact hrefl
      | mapping dv =>
        refine ⟨fun h => ?_, fun s hs => ?_⟩
        · -- a None diff: every local entry agrees with the default
          rw [compare_mapping_mapping] at h
          by_cases he : (diffEntries lv dv).isEmpty
          · have hdiff : diffEntries lv dv = [] := by
              simpa [List.isEmpty_iff] using he
            simp only [agreeExc]
            rw [agreeEntriesExc_iff]
            intro k v hm
            have hk : keyLookup k lv = some v := mem_keyLookup_of_nodup h1 hm
            have hvsz : Tree.size v ≤ n := by
              have := mem_entries_size hm
              omega
            have hvnd : nodupKeys v = true := nodupEntries_mem h2 hm
            have hvnf : nanFree v = true := nanFreeEntries_mem h3 hm
            have hD2 := diffEntries_lookup (k := k) dv h1
            rw [hk, hdiff] at hD2
            cases hdv : keyLookup k dv with
            | some di =>
              rw [hdv] at hD2
              have hc : compare_and_extract_diff v di = none := by
                simpa [keyLookup] using hD2.symm
              refine ⟨fun w hw => ?_, fun hn => ?_⟩
              · injection hw with hw
                subst hw
                exact (ih v di hvsz hvnd hvnf).1 hc
              · cases hn
            | none =>
              rw [hdv] at hD2
              cases v with
              | null =>
                refine ⟨fun w hw => ?_, fun _ => rfl⟩
                cases hw
              | mapping es => simp [keyLookup] at hD2
              | seq es => simp [keyLookup] at hD2
              | scalar b => simp [keyLookup] at hD2
          · simp [he] at h
        · -- a Some diff merged back onto the default
          rw [compare_mapping_mapping] at hs
          by_cases he : (diffEntries lv dv).isEmpty
          · simp [he] at hs
          · rw [if_neg he] at hs
            injection hs with hs
            subst hs
            simp only [mergeOverride, agreeExc]
            rw [agreeEntriesExc_iff]
            intro k v hm
            have hk : keyLookup k lv = some v := mem_keyLookup_of_nodup h1 hm
            have hvsz : Tree.size v ≤ n := by
              have := mem_entries_size hm
              omega
            have hvnd : nodupKeys v = true := nodupEntries_mem h2 hm
            have hvnf : nanFree v = true := nanFreeEntries_mem h3 hm
            have hD2 := diffEntries_lookup (k := k) dv h1
            rw [hk] at hD2
            cases hdv : keyLookup k dv with
            | some di =>
              rw [hdv] at hD2
              simp only [] at hD2
              have hmerge := keyLookup_mergeOverride (k := k) dv (diffEntries lv dv)
              rw [hdv, hD2] at hmerge
              cases hc : compare_and_extract_diff v di with
              | some sub =>
                rw [hc] at hmerge
                simp only [] at hmerge
                refine ⟨fun w hw => ?_, fun hn => ?_⟩
                · rw [hmerge] at hw
                  injection hw with hw
                  subst hw
                  exact (ih v di hvsz hvnd hvnf).2 sub hc
                · rw [hmerge] at hn
                  cases hn
              | none =>
                rw [hc] at hmerge
                simp only [] at hmerge
                refine ⟨fun w hw => ?_, fun hn => ?_⟩
                · rw [hmerge] at hw
                  injection hw with hw
                  subst hw
                  exact (ih v di hvsz hvnd hvnf).1 hc
                · rw [hmerge] at hn
                  cases hn
            | none =>
              rw [hdv] at hD2
              simp only [] at hD2
              have hmerge := keyLookup_mergeOverride (k := k) dv (diffEntries lv dv)
              rw [hdv, hD2] at hmerge
              cases v with
              | null => exact ⟨fun w _ => rfl, fun _ => rfl⟩
              | mapping es =>
                simp only [] at hmerge
                refine ⟨fun w hw => ?_, fun hn => ?_⟩
                · rw [hmerge] at hw
                  injection hw with hw
                  subst hw
                  exact agreeExc_refl (Tree.size (Tree.mapping es)) _ le_rfl hvnd hvnf
                · rw [hmerge] at hn
                  cases hn
              | seq es =>
                simp only [] at hmerge
                refine ⟨fun w hw => ?_, fun hn => ?_⟩
                · rw [hmerge] at hw
                  injection hw with hw
                  subst hw
                  exact agreeExc_refl (Tree.size (Tree.seq es)) _ le_rfl hvnd hvnf
                · rw [hmerge] at hn
                  cases hn
              | scalar b =>
                simp only [] at hmerge
                refine ⟨fun w hw => ?_, fun hn => ?_⟩
                · rw [hmerge] at hw
                  injection hw with hw
                  subst hw
                  exact agreeExc_refl (Tree.size (Tree.scalar b)) _ le_rfl hvnd hvnf
                · rw [hmerge] at hn
                  cases hn

theorem kind_typeOf (l : Tree) : kind l = kindOfType (typeOf l) := by
  cases l with
  | mapping es => rfl
  | seq es => rfl
  | scalar s => cases s <;> rfl
  | null => rfl

theorem typeOf_ne_of_kind_ne {l d : Tree} (h : kind l ≠ kind d) :
    typeOf l ≠ typeOf d := by
  intro hc
  exact h (by rw [kind_typeOf, kind_typeOf, hc])

theorem compareOrdered_type_mismatch (ord : List String → List String → List String)
    {l d : Tree} (h : typeOf l ≠ typeOf d) :
    compare_and_extract_diff_ordered ord l d =
      match l with
      | .null => none
      | _ => some l := by
  cases l <;> cases d <;>
    first
      | (exact absurd rfl h)
      | (rename_i a b
         cases a <;> cases b <;>
           first
             | (exact absurd rfl h)
             | (simp [compare_and_extract_diff_ordered, typeOf]))
      | (rename_i a
         cases a <;> simp [compare_and_extract_diff_ordered, typeOf])

theorem compareOrdered_mapping_mapping (ord : List String → List String → List String)
    (lv dv : List (String × Tree)) :
    compare_and_extract_diff_ordered ord (.mapping lv) (.mapping dv) =
      if (diffEntriesOrdered ord lv dv (ord (lv.map Prod.fst) (dv.map Prod.fst))).isEmpty
      then none
      else some (.mapping (diffEntriesOrdered ord lv dv
        (ord (lv.map Prod.fst) (dv.map Prod.fst)))) := by
  simp [compare_and_extract_diff_ordered, typeOf]

theorem compareOrdered_seq_seq (ord : List String → List String → List String)
    (a b : List Tree) :
    compare_and_extract_diff_ordered ord (.seq a) (.seq b) =
      if pyEqTree (.seq a) (.seq b) then none else some (.seq a) := by
  simp [compare_and_extract_diff_ordered, typeOf]

theorem typeOf_scalar_eq {a b : Scalar} :
    typeOf (.scalar a) = typeOf (.scalar b) ↔ sameScalarType a b = true := by
  cases a <;> cases b <;> simp [typeOf, sameScalarType]

theorem compareOrdered_scalar_scalar (ord : List String → List String → List String)
    (a b : Scalar) :
    compare_and_extract_diff_ordered ord (.scalar a) (.scalar b) =
      if sameScalarType a b then
        (if pyEqScalar a b then none else some (.scalar a))
      else some (.scalar a) := by
  by_cases hst : sameScalarType a b = true
  · have ht : typeOf (Tree.scalar a) = typeOf (Tree.scalar b) := typeOf_scalar_eq.mpr hst
    have hb : (typeOf (Tree.scalar a) != typeOf (Tree.scalar b)) = false := by
      simp [ht]
    rw [if_pos hst]
    simp [compare_and_extract_diff_ordered, hb, pyEqTree]
  · have ht : typeOf (Tree.scalar a) ≠ typeOf (Tree.scalar b) :=
      fun hc => hst (typeOf_scalar_eq.mp hc)
    rw [if_neg hst, compareOrdered_type_mismatch ord ht]

theorem diffEntries_self_nil {sub full : List (String × Tree)}
    (h : ∀ k v, (k, v) ∈ sub →
      keyLookup k full = some v ∧ compare_and_extract_diff v v = none) :
    diffEntries sub full = [] := by
  induction sub with
  | nil => rfl
  | cons e rest ih =>
    obtain ⟨k, v⟩ := e
    obtain ⟨h1, h2⟩ := h k v (List.mem_cons_self _ _)
    simp [diffEntries, h1, h2]
    exact ih (fun k' v' hm => h k' v' (List.mem_cons_of_mem _ hm))

theorem diffEntriesOrdered_self_nil (ord : List String → List String → List String)
    (full : List (String × Tree))
    (h : ∀ k li, keyLookup k full = some li →
      compare_and_extract_diff_ordered ord li li = none) :
    ∀ ks, diffEntriesOrdered ord full full ks = [] := by
  intro ks
  induction ks with
  | nil => simp [diffEntriesOrdered]
  | cons k ks ih =>
    cases hl : keyLookup k full with
    | none => simp [diffEntriesOrdered, hl, ih]
    | some li =>
      simp only [diffEntriesOrdered, hl]
      split
      · exact ih
      · rename_i li1 heq
        rw [hl] at heq
        injection heq with heq
        subst heq
        simp [h k li hl, ih]

theorem idem_aux : ∀ n (X : Tree), Tree.size X ≤ n → nodupKeys X = true →
    nanFree X = true →
    compare_and_extract_diff X X = none ∧
    ∀ ord, compare_and_extract_diff_ordered ord X X = none := by
  intro n
  induction n with
  | zero =>
    intro X h
    have := size_pos X
    omega
  | succ n ih =>
    intro X hsz hnd hnf
    cases X with
    | null => exact ⟨rfl, fun ord => compareOrdered_null_left ord _⟩
    | scalar a =>
      have ha : Scalar.isNan a = false := by simpa [nanFree] using hnf
      refine ⟨?_, fun ord => ?_⟩
      · rw [compare_scalar_scalar, if_pos (pyEqScalar_refl ha)]
      · rw [compareOrdered_scalar_scalar, if_pos (by cases a <;> rfl),
          if_pos (pyEqScalar_refl ha)]
    | seq es =>
      have hpe : pyEqTree (Tree.seq es) (Tree.seq es) = true :=
        pyEqTree_refl (Tree.size (Tree.seq es)) _ le_rfl hnd hnf
      refine ⟨?_, fun ord => ?_⟩
      · rw [compare_seq_seq, if_pos hpe]
      · rw [compareOrdered_seq_seq, if_pos hpe]
    | mapping lv =>
      obtain ⟨h1, h2⟩ := nodupKeys_mapping hnd
      have h3 : nanFreeEntries lv = true := nanFree_mapping hnf
      have hszm : Tree.size (Tree.mapping lv) = 1 + sizeEntries lv := by simp [Tree.size]
      refine ⟨?_, fun ord => ?_⟩
      · rw [compare_mapping_mapping]
        have hnil : diffEntries lv lv = [] := by
          apply diffEntries_self_nil
          intro k v hm
          refine ⟨mem_keyLookup_of_nodup h1 hm, ?_⟩
          have := mem_entries_size hm
          exact (ih v (by omega) (nodupEntries_mem h2 hm) (nanFreeEntries_mem h3 hm)).1
        rw [hnil]
        rfl
      · rw [compareOrdered_mapping_mapping]
        have hnil := diffEntriesOrdered_self_nil ord lv
          (fun k li hl => by
            have := keyLookup_size hl
            exact (ih li (by omega)
              (nodupEntries_mem h2 (keyLookup_mem hl))
              (nanFreeEntries_mem h3 (keyLookup_mem hl))).2 ord)
          (ord (lv.map Prod.fst) (lv.map Prod.fst))
        rw [hnil]
        rfl

theorem diffEntriesOrdered_keys_sublist (ord : List String → List String → List String)
    (lv dv : List (String × Tree)) :
    ∀ ks, ((diffEntriesOrdered ord lv dv ks).map Prod.fst).Sublist ks := by
  intro ks
  induction ks with
  | nil => simp [diffEntriesOrdered]
  | cons k ks ih =>
    cases hdv : keyLookup k dv with
    | none =>
      cases hlv : keyLookup k lv with
      | none =>
        simp [diffEntriesOrdered, hdv, hlv]
        exact ih.cons _
      | some li =>
        cases li <;> simp [diffEntriesOrdered, hdv, hlv] <;>
          first
            | exact ih
            | exact ih.cons _
    | some di =>
      simp only [diffEntriesOrdered, hdv]
      split
      · exact ih.cons _
      · rename_i li heq
        cases hc : compare_and_extract_diff_ordered ord li di with
        | some sub =>
          simp [hc]
          exact ih
        | none =>
          simp [hc]
          exact ih.cons _

/-- C2 (amended): for every NaN-free tree X satisfying the Mapping
unique-keys invariant, both implementations of `compare_and_extract_diff`
return None when a tree is compared against itself, the ordered variant
under every enumeration order of the key-set union. -/
theorem extract_idempotent (X : Tree) (h : nodupKeys X = true)
    (hn : nanFree X = true) :
    compare_and_extract_diff X X = none ∧
    ∀ ord, compare_and_extract_diff_ordered ord X X = none :=
  idem_aux (Tree.size X) X le_rfl h hn

/-- Witness for C2 at the concrete tree with one key. -/
theorem extract_idempotent_witness :
    compare_and_extract_diff (.mapping [("a", .scalar (.int 1))])
      (.mapping [("a", .scalar (.int 1))]) = none ∧
    compare_and_extract_diff_ordered localFirstOrd (.mapping [("a", .scalar (.int 1))])
      (.mapping [("a", .scalar (.int 1))]) = none :=
  ⟨(extract_idempotent (.mapping [("a", .scalar (.int 1))]) rfl rfl).1,
   (extract_idempotent (.mapping [("a", .scalar (.int 1))]) rfl rfl).2 localFirstOrd⟩

/-- C2 counterexample: a tree containing the float NaN is not
self-identical under Python `==` (nan != nan), so comparing it against
itself yields a Some result in both implementations, falsifying
extractOverrides(X, X) = None for every tree X. -/
theorem extract_idempotent_counterexample :
    compare_and_extract_diff (.scalar .nan) (.scalar .nan) = some (.scalar .nan) ∧
    compare_and_extract_diff_ordered localFirstOrd (.scalar .nan) (.scalar .nan)
      = some (.scalar .nan) := by
  constructor
  · rw [compare_scalar_scalar]
    simp [pyEqScalar]
  · rw [compareOrdered_scalar_scalar]
    simp [sameScalarType, pyEqScalar]

/-- C7: whenever the kinds (Mapping, Sequence, Scalar, Null) of the two
inputs differ, both implementations return the whole local value, or None
when the local value is Null. -/
theorem kind_mismatch_rule (l d : Tree) (h : kind l ≠ kind d) :
    compare_and_extract_diff l d = (if l.isNull then none else some l) ∧
    ∀ ord, compare_and_extract_diff_ordered ord l d =
      (if l.isNull then none else some l) := by
  constructor
  · cases l <;> cases d <;>
      first
        | (exact absurd rfl h)
        | (simp [compare_and_extract_diff, isMap, isSeq, Tree.isNull, pyEqTree])
  · intro ord
    rw [compareOrdered_type_mismatch ord (typeOf_ne_of_kind_ne h)]
    cases l <;> simp [Tree.isNull]

/-- Witness for C7 at a Scalar local against a Null default. -/
theorem kind_mismatch_rule_witness :
    compare_and_extract_diff (.scalar (.int 1)) .null = some (.scalar (.int 1)) ∧
    compare_and_extract_diff_ordered localFirstOrd (.scalar (.int 1)) .null
      = some (.scalar (.int 1)) := by
  have h := kind_mismatch_rule (.scalar (.int 1)) .null (by simp [kind])
  exact ⟨by simpa [Tree.isNull] using h.1,
    by simpa [Tree.isNull] using h.2 localFirstOrd⟩

theorem specEqScalar_sameType {a b : Scalar} (h : specEqScalar a b = true) :
    sameScalarType a b = true := by
  cases a <;> cases b <;> simp_all [specEqScalar, sameScalarType]

theorem pyEq_eq_specEq_of_sameType {a b : Scalar} (h : sameScalarType a b = true) :
    pyEqScalar a b = specEqScalar a b := by
  cases a with
  | int n =>
    cases b with
    | int m => simp [pyEqScalar, specEqScalar, pyNum, Int.cast_inj]
    | float q => simp [sameScalarType] at h
    | nan => simp [sameScalarType] at h
    | str t => simp [sameScalarType] at h
    | bool y => simp [sameScalarType] at h
  | float p =>
    cases b with
    | int m => simp [sameScalarType] at h
    | float q => simp [pyEqScalar, specEqScalar, pyNum]
    | nan => rfl
    | str t => simp [sameScalarType] at h
    | bool y => simp [sameScalarType] at h
  | nan =>
    cases b with
    | int m => simp [sameScalarType] at h
    | float q => rfl
    | nan => rfl
    | str t => simp [sameScalarType] at h
    | bool y => simp [sameScalarType] at h
  | str s =>
    cases b with
    | int m => simp [sameScalarType] at h
    | float q => simp [sameScalarType] at h
    | nan => simp [sameScalarType] at h
    | str t => rfl
    | bool y => simp [sameScalarType] at h
  | bool x =>
    cases b with
    | int m => simp [sameScalarType] at h
    | float q => simp [sameScalarType] at h
    | nan => simp [sameScalarType] at h
    | str t => simp [sameScalarType] at h
    | bool y => cases x <;> cases y <;> decide

/-- main-ordered.py's `type()` guard makes its Scalar comparison follow
the spec's type-sensitive structural equality: same Python type and equal
value give None, everything else gives the local value. -/
theorem compareOrdered_scalar_rule (ord : List String → List String → List String)
    (a b : Scalar) :
    compare_and_extract_diff_ordered ord (.scalar a) (.scalar b)
      = if specEqScalar a b then none else some (.scalar a) := by
  rw [compareOrdered_scalar_scalar]
  by_cases hst : sameScalarType a b = true
  · rw [if_pos hst, pyEq_eq_specEq_of_sameType hst]
  · rw [if_neg hst, if_neg (fun hc => hst (specEqScalar_sameType hc))]

/-- C4 (amended): at Scalar/Scalar and Null/Null nodes, main.py returns
None exactly when the values are equal under Python `==` — under which
strings equal only identical strings (so "1" != 1), while int, float and
bool compare numerically across types (so 1 == 1.0 and True == 1) — and
Some(local) otherwise; main-ordered.py instead returns None exactly when
the scalars are equal under the spec's type-sensitive equality (its
`type()` guard fires on mixed-type pairs first), so the claim's
type-sensitive rule holds for it but not for main.py. -/
theorem scalar_null_rule (a b : Scalar) :
    compare_and_extract_diff (.scalar a) (.scalar b) =
      (if pyEqScalar a b then none else some (.scalar a)) ∧
    (∀ ord, compare_and_extract_diff_ordered ord (.scalar a) (.scalar b) =
      (if specEqScalar a b then none else some (.scalar a))) ∧
    compare_and_extract_diff .null .null = none ∧
    (∀ ord, compare_and_extract_diff_ordered ord .null .null = none) ∧
    pyEqScalar (.str "1") (.int 1) = false ∧
    pyEqScalar (.int 1) (.float 1) = true ∧
    specEqScalar (.int 1) (.float 1) = false :=
  ⟨compare_scalar_scalar a b, fun ord => compareOrdered_scalar_rule ord a b, rfl,
   fun ord => compareOrdered_null_left ord .null, rfl, by decide, rfl⟩

/-- C4 counterexample: the integer 1 and the float 1.0 have different
logical types, so under the spec's type-sensitive equality the node is an
override, yet the code returns None for it. -/
theorem scalar_null_rule_counterexample :
    compare_and_extract_diff (.scalar (.int 1)) (.scalar (.float 1)) = none ∧
    specEqScalar (.int 1) (.float 1) = false := by
  refine ⟨?_, rfl⟩
  rw [compare_scalar_scalar]
  simp [pyEqScalar, pyNum]

/-- C6 (amended): sequences are compared atomically with the code's
value equality (Python `==`): an unequal pair yields the whole local
sequence, an equal pair yields None, and an empty local sequence against
a non-empty default is unequal and therefore overrides. -/
theorem sequence_atomicity (a b : List Tree) :
    compare_and_extract_diff (.seq a) (.seq b) =
      (if pyEqTree (.seq a) (.seq b) then none else some (.seq a)) ∧
    (∀ ord, compare_and_extract_diff_ordered ord (.seq a) (.seq b) =
      (if pyEqTree (.seq a) (.seq b) then none else some (.seq a))) ∧
    (∀ t ts, compare_and_extract_diff (.seq []) (.seq (t :: ts)) = some (.seq [])) := by
  refine ⟨compare_seq_seq a b, fun ord => compareOrdered_seq_seq ord a b, fun t ts => ?_⟩
  rw [compare_seq_seq]
  simp [pyEqTree]

/-- C6 counterexample: the sequences [1] and [1.0] are structurally
unequal under the spec's type-sensitive equality, so the claim requires
Some([1]), yet the code finds them Python-equal and returns None. -/
theorem sequence_atomicity_counterexample :
    specEqTree (.seq [.scalar (.int 1)]) (.seq [.scalar (.float 1)]) = false ∧
    compare_and_extract_diff (.seq [.scalar (.int 1)]) (.seq [.scalar (.float 1)])
      = none := by
  refine ⟨rfl, ?_⟩
  rw [compare_seq_seq]
  simp [pyEqTree, pyEqElems, pyEqScalar, pyNum]

/-- C10: when the kinds of the two inputs match, neither implementation
ever returns Some of an empty Mapping — an all-matching Mapping
comparison yields None instead. -/
theorem no_empty_mapping (l d : Tree) (hk : kind l = kind d) :
    (∀ t es, compare_and_extract_diff l d = some t → t = .mapping es → es ≠ []) ∧
    (∀ ord t es, compare_and_extract_diff_ordered ord l d = some t →
      t = .mapping es → es ≠ []) := by
  cases l with
  | mapping lv =>
    cases d with
    | mapping dv =>
      constructor
      · intro t es ht hte
        rw [compare_mapping_mapping] at ht
        by_cases he : (diffEntries lv dv).isEmpty
        · simp [he] at ht
        · rw [if_neg he] at ht
          injection ht with ht
          subst ht
          injection hte with hte
          subst hte
          exact fun hnil => he (by simp [hnil])
      · intro ord t es ht hte
        rw [compareOrdered_mapping_mapping] at ht
        by_cases he : (diffEntriesOrdered ord lv dv
            (ord (lv.map Prod.fst) (dv.map Prod.fst))).isEmpty
        · simp [he] at ht
        · rw [if_neg he] at ht
          injection ht with ht
          subst ht
          injection hte with hte
          subst hte
          exact fun hnil => he (by simp [hnil])
    | seq ds => simp [kind] at hk
    | scalar b => simp [kind] at hk
    | null => simp [kind] at hk
  | seq es0 =>
    cases d with
    | seq ds =>
      constructor
      · intro t es ht hte
        rw [compare_seq_seq] at ht
        by_cases hpe : pyEqTree (Tree.seq es0) (Tree.seq ds) = true
        · simp [hpe] at ht
        · rw [if_neg hpe] at ht
          injection ht with ht
          subst ht
          cases hte
      · intro ord t es ht hte
        rw [compareOrdered_seq_seq] at ht
        by_cases hpe : pyEqTree (Tree.seq es0) (Tree.seq ds) = true
        · simp [hpe] at ht
        · rw [if_neg hpe] at ht
          injection ht with ht
          subst ht
          cases hte
    | mapping dv => simp [kind] at hk
    | scalar b => simp [kind] at hk
    | null => simp [kind] at hk
  | scalar a =>
    cases d with
    | scalar b =>
      constructor
      · intro t es ht hte
        rw [compare_scalar_scalar] at ht
        by_cases hpe : pyEqScalar a b = true
        · simp [hpe] at ht
        · rw [if_neg hpe] at ht
          injection ht with ht
          subst ht
          cases hte
      · intro ord t es ht hte
        rw [compareOrdered_scalar_scalar] at ht
        by_cases hst : sameScalarType a b = true
        · rw [if_pos hst] at ht
          by_cases hpe : pyEqScalar a b = true
          · simp [hpe] at ht
          · rw [if_neg hpe] at ht
            injection ht with ht
            subst ht
            cases hte
        · rw [if_neg hst] at ht
          injection ht with ht
          subst ht
          cases hte
    | mapping dv => simp [kind] at hk
    | seq ds => simp [kind] at hk
    | null => simp [kind] at hk
  | null =>
    cases d with
    | null =>
      constructor
      · intro t es ht hte
        rw [compare_null_left] at ht
        cases ht
      · intro ord t es ht hte
        rw [compareOrdered_null_left] at ht
        cases ht
    | mapping dv => simp [kind] at hk
    | seq ds => simp [kind] at hk
    | scalar b => simp [kind] at hk

/-- Witness for C10 at two one-key Mappings that differ in a value. -/
theorem no_empty_mapping_witness :
    ([("a", Tree.scalar (.int 2))] : List (String × Tree)) ≠ [] :=
  (no_empty_mapping (.mapping [("a", .scalar (.int 2))])
      (.mapping [("a", .scalar (.int 1))]) rfl).1
    (.mapping [("a", .scalar (.int 2))]) [("a", .scalar (.int 2))] rfl rfl

/-- C3 (amended): main.py emits the diff Mapping's keys as a subsequence
of the local Mapping's keys in local order, for every default Mapping;
main-ordered.py instead emits them as a subsequence of the enumeration
order of `set(local) | set(default)`, which Python leaves unspecified. -/
theorem output_key_order (ls ds : List (String × Tree)) :
    (∀ t, compare_and_extract_diff (.mapping ls) (.mapping ds) = some t →
      isMap t = true ∧ ((entriesOf t).map Prod.fst).Sublist (ls.map Prod.fst)) ∧
    (∀ ord t, compare_and_extract_diff_ordered ord (.mapping ls) (.mapping ds) = some t →
      isMap t = true ∧
        ((entriesOf t).map Prod.fst).Sublist (ord (ls.map Prod.fst) (ds.map Prod.fst))) := by
  constructor
  · intro t ht
    rw [compare_mapping_mapping] at ht
    by_cases he : (diffEntries ls ds).isEmpty
    · simp [he] at ht
    · rw [if_neg he] at ht
      injection ht with ht
      subst ht
      exact ⟨rfl, by simpa [entriesOf] using diffEntries_keys_sublist ls ds⟩
  · intro ord t ht
    rw [compareOrdered_mapping_mapping] at ht
    by_cases he : (diffEntriesOrdered ord ls ds
        (ord (ls.map Prod.fst) (ds.map Prod.fst))).isEmpty
    · simp [he] at ht
    · rw [if_neg he] at ht
      injection ht with ht
      subst ht
      refine ⟨rfl, ?_⟩
      have hs := diffEntriesOrdered_keys_sublist ord ls ds
        (ord (ls.map Prod.fst) (ds.map Prod.fst))
      simpa [entriesOf] using hs

/-- Witness for C3 at a one-key local Mapping against an empty default. -/
theorem output_key_order_witness :
    isMap (Tree.mapping [("b", Tree.scalar (.int 2))]) = true ∧
    ((entriesOf (Tree.mapping [("b", Tree.scalar (.int 2))])).map Prod.fst).Sublist
      (List.map Prod.fst [("b", Tree.scalar (.int 2))]) :=
  (output_key_order [("b", Tree.scalar (.int 2))] []).1
    (Tree.mapping [("b", Tree.scalar (.int 2))]) rfl

/-- C3 counterexample: under the reversed (but admissible) set-iteration
order, main-ordered.py emits the keys b then a although the local Mapping
declares a before b — the output order follows the set-iteration order,
not the local order. -/
theorem output_key_order_counterexample :
    compare_and_extract_diff_ordered revOrd
        (.mapping [("a", .scalar (.int 1)), ("b", .scalar (.int 2))]) (.mapping [])
      = some (.mapping [("b", .scalar (.int 2)), ("a", .scalar (.int 1))]) ∧
    revOrd ["a", "b"] [] = ["b", "a"] ∧
    (["b", "a"] : List String) ≠ ["a", "b"] ∧
    (["b", "a"] : List String).Nodup := by
  refine ⟨?_, rfl, by decide, by decide⟩
  rw [compareOrdered_mapping_mapping]
  simp [diffEntriesOrdered, revOrd, localFirstOrd, keyLookup]

theorem diffEntriesOrdered_cons_lookup {ord : List String → List String → List String}
    {lv dv : List (String × Tree)} {k : String} {ks : List String} {di li : Tree}
    (hdv : keyLookup k dv = some di) (hlv : keyLookup k lv = some li) :
    diffEntriesOrdered ord lv dv (k :: ks) =
      match compare_and_extract_diff_ordered ord li di with
      | some sub => (k, sub) :: diffEntriesOrdered ord lv dv ks
      | none => diffEntriesOrdered ord lv dv ks := by
  simp only [diffEntriesOrdered, hdv]
  split
  · rename_i heq
    rw [hlv] at heq
    cases heq
  · rename_i li1 heq
    rw [hlv] at heq
    injection heq with heq
    subst heq
    rfl

theorem diffEntriesOrdered_cons_noLookup {ord : List String → List String → List String}
    {lv dv : List (String × Tree)} {k : String} {ks : List String} {di : Tree}
    (hdv : keyLookup k dv = some di) (hlv : keyLookup k lv = none) :
    diffEntriesOrdered ord lv dv (k :: ks) = diffEntriesOrdered ord lv dv ks := by
  simp only [diffEntriesOrdered, hdv]
  split
  · rfl
  · rename_i li1 heq
    rw [hlv] at heq
    cases heq

theorem diffEntriesOrderedE_cons_lookup {ord : List String → List String → List String}
    {lv dv : List (String × Tree)} {k : String} {ks : List String} {di li : Tree}
    (hdv : keyLookup k dv = some di) (hlv : keyLookup k lv = some li) :
    diffEntriesOrderedE ord lv dv (k :: ks) =
      match compareOrderedE ord li di with
      | .error e => .error e
      | .ok sub =>
        match diffEntriesOrderedE ord lv dv ks with
        | .error e => .error e
        | .ok es => .ok (match sub with
                         | some s => (k, s) :: es
                         | none => es) := by
  simp only [diffEntriesOrderedE, hdv]
  split
  · rename_i heq
    rw [hlv] at heq
    cases heq
  · rename_i li1 heq
    rw [hlv] at heq
    injection heq with heq
    subst heq
    rfl

theorem diffEntriesOrderedE_cons_noLookup {ord : List String → List String → List String}
    {lv dv : List (String × Tree)} {k : String} {ks : List String} {di : Tree}
    (hdv : keyLookup k dv = some di) (hlv : keyLookup k lv = none) :
    diffEntriesOrderedE ord lv dv (k :: ks) = diffEntriesOrderedE ord lv dv ks := by
  simp only [diffEntriesOrderedE, hdv]
  split
  · rfl
  · rename_i li1 heq
    rw [hlv] at heq
    cases heq

theorem diffEntriesE_ok {sub dv : List (String × Tree)}
    (h : ∀ k v, (k, v) ∈ sub → ∀ di,
      compareE v di = .ok (compare_and_extract_diff v di)) :
    diffEntriesE sub dv = .ok (diffEntries sub dv) := by
  induction sub with
  | nil => rfl
  | cons e rest ih =>
    obtain ⟨k, v⟩ := e
    have hrest := ih (fun k' v' hm di => h k' v' (List.mem_cons_of_mem _ hm) di)
    cases hdv : keyLookup k dv with
    | none =>
      cases v <;> simp [diffEntriesE, diffEntries, hdv, hrest]
    | some di =>
      have hv := h k v (List.mem_cons_self _ _) di
      cases hc : compare_and_extract_diff v di with
      | some sub2 => simp [diffEntriesE, diffEntries, hdv, hrest, hv, hc]
      | none => simp [diffEntriesE, diffEntries, hdv, hrest, hv, hc]

theorem compareE_ok : ∀ n (l d : Tree), Tree.size l ≤ n →
    compareE l d = .ok (compare_and_extract_diff l d) := by
  intro n
  induction n with
  | zero =>
    intro l d h
    have := size_pos l
    omega
  | succ n ih =>
    intro l d hsz
    cases l with
    | null => cases d <;> rfl
    | scalar a => cases d <;> rfl
    | seq es => cases d <;> rfl
    | mapping lv =>
      cases d with
      | mapping dv =>
        have hszm : Tree.size (Tree.mapping lv) = 1 + sizeEntries lv := by
          simp [Tree.size]
        have hsub : ∀ k v, (k, v) ∈ lv → ∀ di,
            compareE v di = .ok (compare_and_extract_diff v di) := by
          intro k v hm di
          have := mem_entries_size hm
          exact ih v di (by omega)
        simp [compareE, compare_and_extract_diff, isMap, isSeq, diffEntriesE_ok hsub]
      | seq ds => rfl
      | scalar b => rfl
      | null => rfl

theorem compareOrderedE_type_mismatch (ord : List String → List String → List String)
    {l d : Tree} (h : typeOf l ≠ typeOf d) :
    compareOrderedE ord l d =
      .ok (match l with
           | .null => none
           | _ => some l) := by
  cases l <;> cases d <;>
    first
      | (exact absurd rfl h)
      | (rename_i a b
         cases a <;> cases b <;>
           first
             | (exact absurd rfl h)
             | (simp [compareOrderedE, typeOf]))
      | (rename_i a
         cases a <;> simp [compareOrderedE, typeOf])

theorem diffEntriesOrderedE_ok (ord : List String → List String → List String)
    {lv dv : List (String × Tree)}
    (h : ∀ k li, keyLookup k lv = some li → ∀ di,
      compareOrderedE ord li di = .ok (compare_and_extract_diff_ordered ord li di)) :
    ∀ ks, diffEntriesOrderedE ord lv dv ks = .ok (diffEntriesOrdered ord lv dv ks) := by
  intro ks
  induction ks with
  | nil => simp [diffEntriesOrderedE, diffEntriesOrdered]
  | cons k ks ih =>
    cases hdv : keyLookup k dv with
    | none =>
      cases hlv : keyLookup k lv with
      | none => simp [diffEntriesOrderedE, diffEntriesOrdered, hdv, hlv, ih]
      | some li =>
        cases li <;> simp [diffEntriesOrderedE, diffEntriesOrdered, hdv, hlv, ih]
    | some di =>
      cases hlv : keyLookup k lv with
      | none =>
        rw [diffEntriesOrderedE_cons_noLookup hdv hlv,
          diffEntriesOrdered_cons_noLookup hdv hlv]
        exact ih
      | some li =>
        rw [diffEntriesOrderedE_cons_lookup hdv hlv,
          diffEntriesOrdered_cons_lookup hdv hlv, h k li hlv di, ih]

theorem compareOrderedE_ok (ord : List String → List String → List String) :
    ∀ n (l d : Tree), Tree.size l ≤ n →
    compareOrderedE ord l d = .ok (compare_and_extract_diff_ordered ord l d) := by
  intro n
  induction n with
  | zero =>
    intro l d h
    have := size_pos l
    omega
  | succ n ih =>
    intro l d hsz
    by_cases hb : typeOf l = typeOf d
    · have hbne : (typeOf l != typeOf d) = false := by simp [hb]
      cases l with
      | mapping lv =>
        cases d with
        | mapping dv =>
          have hszm : Tree.size (Tree.mapping lv) = 1 + sizeEntries lv := by
            simp [Tree.size]
          have hsub : ∀ k li, keyLookup k lv = some li → ∀ di,
              compareOrderedE ord li di
                = .ok (compare_and_extract_diff_ordered ord li di) := by
            intro k li hlv di
            have := keyLookup_size hlv
            exact ih li di (by omega)
          simp [compareOrderedE, compare_and_extract_diff_ordered, typeOf,
            diffEntriesOrderedE_ok ord hsub]
        | seq ds => simp [typeOf] at hb
        | scalar b => cases b <;> simp [typeOf] at hb
        | null => simp [typeOf] at hb
      | seq es =>
        cases d with
        | seq ds => simp [compareOrderedE, compare_and_extract_diff_ordered, typeOf]
        | mapping dv => simp [typeOf] at hb
        | scalar b => cases b <;> simp [typeOf] at hb
        | null => simp [typeOf] at hb
      | scalar a =>
        cases d with
        | scalar b => simp [compareOrderedE, compare_and_extract_diff_ordered, hbne]
        | mapping dv => cases a <;> simp [typeOf] at hb
        | seq ds => cases a <;> simp [typeOf] at hb
        | null => cases a <;> simp [typeOf] at hb
      | null =>
        cases d with
        | null => simp [compareOrderedE, compare_and_extract_diff_ordered, typeOf, pyEqTree]
        | mapping dv => simp [typeOf] at hb
        | seq ds => simp [typeOf] at hb
        | scalar b => cases b <;> simp [typeOf] at hb
    · rw [compareOrderedE_type_mismatch ord hb, compareOrdered_type_mismatch ord hb]

/-- C8: both diff implementations are total over the Tree domain: the
exception-explicit embeddings `compareE` and `compareOrderedE`, in which
every Python operation that could raise is an explicit error arm, always
return ok with the value of the pure functions — no input shape reaches
an exception, and the result is always either None or a tree. -/
theorem engine_total (l d : Tree) :
    compareE l d = .ok (compare_and_extract_diff l d) ∧
    ∀ ord, compareOrderedE ord l d
      = .ok (compare_and_extract_diff_ordered ord l d) :=
  ⟨compareE_ok (Tree.size l) l d le_rfl,
   fun ord => compareOrderedE_ok ord (Tree.size l) l d le_rfl⟩

theorem diffEntriesOrdered_append (ord : List String → List String → List String)
    (lv dv : List (String × Tree)) (xs ys : List String) :
    diffEntriesOrdered ord lv dv (xs ++ ys) =
      diffEntriesOrdered ord lv dv xs ++ diffEntriesOrdered ord lv dv ys := by
  induction xs with
  | nil => simp [diffEntriesOrdered]
  | cons k ks ih =>
    cases hdv : keyLookup k dv with
    | none =>
      cases hlv : keyLookup k lv with
      | none => simp [diffEntriesOrdered, hdv, hlv, ih]
      | some li => cases li <;> simp [diffEntriesOrdered, hdv, hlv, ih]
    | some di =>
      cases hlv : keyLookup k lv with
      | none =>
        rw [List.cons_append, diffEntriesOrdered_cons_noLookup hdv hlv,
          diffEntriesOrdered_cons_noLookup hdv hlv, ih]
      | some li =>
        rw [List.cons_append, diffEntriesOrdered_cons_lookup hdv hlv,
          diffEntriesOrdered_cons_lookup hdv hlv, ih]
        cases compare_and_extract_diff_ordered ord li di <;> simp

theorem diffEntriesOrdered_absent (ord : List String → List String → List String)
    {lv dv : List (String × Tree)} :
    ∀ {ks : List String}, (∀ k ∈ ks, keyLookup k lv = none) →
      diffEntriesOrdered ord lv dv ks = [] := by
  intro ks
  induction ks with
  | nil => intro _; simp [diffEntriesOrdered]
  | cons k ks ih =>
    intro h
    have hk : keyLookup k lv = none := h k (List.mem_cons_self _ _)
    have hrest := ih (fun k' hm => h k' (List.mem_cons_of_mem _ hm))
    cases hdv : keyLookup k dv with
    | none => simp [diffEntriesOrdered, hdv, hk, hrest]
    | some di => rw [diffEntriesOrdered_cons_noLookup hdv hk, hrest]

/-- Iterating the local Mapping's own keys, the ordered diff loop
produces exactly what main.py's local-order loop produces, provided the
recursive calls agree. -/
theorem diffEntriesOrdered_local (ord : List String → List String → List String)
    (lv dv : List (String × Tree)) :
    ∀ sub : List (String × Tree),
      (∀ k v, (k, v) ∈ sub → keyLookup k lv = some v) →
      (∀ k li di, keyLookup k lv = some li → keyLookup k dv = some di →
        compare_and_extract_diff_ordered ord li di = compare_and_extract_diff li di) →
      diffEntriesOrdered ord lv dv (sub.map Prod.fst) = diffEntries sub dv := by
  intro sub
  induction sub with
  | nil =>
    intro _ _
    simp [diffEntriesOrdered, diffEntries]
  | cons e rest ih =>
    intro hsub hIH
    obtain ⟨k, v⟩ := e
    have hk : keyLookup k lv = some v := hsub k v (List.mem_cons_self _ _)
    have hrest := ih (fun k' v' hm => hsub k' v' (List.mem_cons_of_mem _ hm)) hIH
    rw [List.map_cons]
    cases hdv : keyLookup k dv with
    | none =>
      cases v <;> simp [diffEntriesOrdered, diffEntries, hdv, hk, hrest]
    | some di =>
      rw [diffEntriesOrdered_cons_lookup hdv hk, hIH k v di hk hdv]
      cases hc : compare_and_extract_diff v di with
      | some sub2 => simp [diffEntries, hdv, hc, hrest]
      | none => simp [diffEntries, hdv, hc, hrest]

theorem typeAlignedEntries_lookup {dv : List (String × Tree)} :
    ∀ {lv}, typeAlignedEntries lv dv = true → ∀ {k v w}, (k, v) ∈ lv →
      keyLookup k dv = some w → typeAligned v w = true := by
  intro lv
  induction lv with
  | nil =>
    intro _ k v w hm
    simp at hm
  | cons e rest ih =>
    intro h k v w hm hw
    obtain ⟨k', v'⟩ := e
    simp only [typeAlignedEntries, Bool.and_eq_true] at h
    obtain ⟨h1, h2⟩ := h
    rcases List.mem_cons.mp hm with he | he
    · rw [Prod.mk.injEq] at he
      obtain ⟨rfl, rfl⟩ := he
      simpa [hw] using h1
    · exact ih h2 he hw

theorem keyLookup_none_of_filter_extra {lv : List (String × Tree)} {k : String}
    {ks : List String}
    (h : k ∈ ks.filter (fun k' => !((lv.map Prod.fst).contains k'))) :
    keyLookup k lv = none := by
  obtain ⟨_, hc⟩ := List.mem_filter.mp h
  simp at hc
  cases hres : keyLookup k lv with
  | none => rfl
  | some v => exact absurd (keyLookup_mem hres) (hc v)

/-- Equivalence of the two implementations on inputs that never compare
a Python-==-equal scalar pair of different Python types, under the
local-keys-first set-iteration order. -/
theorem equiv_aux : ∀ n (l d : Tree), Tree.size l ≤ n → nodupKeys l = true →
    typeAligned l d = true →
    compare_and_extract_diff_ordered localFirstOrd l d = compare_and_extract_diff l d := by
  intro n
  induction n with
  | zero =>
    intro l d h
    have := size_pos l
    omega
  | succ n ih =>
    intro l d hsz hnd hta
    cases l with
    | null => rw [compareOrdered_null_left, compare_null_left]
    | scalar a =>
      cases d with
      | scalar b =>
        rw [compareOrdered_scalar_scalar, compare_scalar_scalar]
        by_cases hst : sameScalarType a b = true
        · rw [if_pos hst]
        · rw [if_neg hst]
          have hpe : pyEqScalar a b = false := by
            simp only [typeAligned, Bool.or_eq_true, Bool.not_eq_true'] at hta
            rcases hta with hta | hta
            · exact hta
            · exact absurd hta hst
          rw [if_neg (by simp [hpe])]
      | mapping dv =>
        rw [compareOrdered_type_mismatch localFirstOrd (by cases a <;> simp [typeOf])]
        simp [compare_and_extract_diff, isMap, isSeq]
      | seq ds =>
        rw [compareOrdered_type_mismatch localFirstOrd (by cases a <;> simp [typeOf])]
        simp [compare_and_extract_diff, isMap, isSeq]
      | null =>
        rw [compareOrdered_type_mismatch localFirstOrd (by cases a <;> simp [typeOf])]
        simp [compare_and_extract_diff, isMap, isSeq, pyEqTree]
    | seq es =>
      cases d with
      | seq ds => rw [compareOrdered_seq_seq, compare_seq_seq]
      | mapping dv =>
        rw [compareOrdered_type_mismatch localFirstOrd (by simp [typeOf])]
        simp [compare_and_extract_diff, isMap, isSeq]
      | scalar b =>
        rw [compareOrdered_type_mismatch localFirstOrd (by cases b <;> simp [typeOf])]
        simp [compare_and_extract_diff, isMap, isSeq]
      | null =>
        rw [compareOrdered_type_mismatch localFirstOrd (by simp [typeOf])]
        simp [compare_and_extract_diff, isMap, isSeq]
    | mapping lv =>
      cases d with
      | mapping dv =>
        rw [compareOrdered_mapping_mapping, compare_mapping_mapping]
        obtain ⟨h1, h2⟩ := nodupKeys_mapping hnd
        have hszm : Tree.size (Tree.mapping lv) = 1 + sizeEntries lv := by
          simp [Tree.size]
        have hta' : typeAlignedEntries lv dv = true := by
          simpa [typeAligned] using hta
        have hIH : ∀ k li di, keyLookup k lv = some li → keyLookup k dv = some di →
            compare_and_extract_diff_ordered localFirstOrd li di
              = compare_and_extract_diff li di := by
          intro k li di hlv hdv
          have hls := keyLookup_size hlv
          exact ih li di (by omega) (nodupEntries_mem h2 (keyLookup_mem hlv))
            (typeAlignedEntries_lookup hta' (keyLookup_mem hlv) hdv)
        have hlocal := diffEntriesOrdered_local localFirstOrd lv dv lv
          (fun k v hm => mem_keyLookup_of_nodup h1 hm) hIH
        have habsent : diffEntriesOrdered localFirstOrd lv dv
            ((dv.map Prod.fst).filter (fun k' => !((lv.map Prod.fst).contains k'))) = [] :=
          diffEntriesOrdered_absent localFirstOrd
            (fun k hm => keyLookup_none_of_filter_extra hm)
        have hkeys : localFirstOrd (lv.map Prod.fst) (dv.map Prod.fst)
            = lv.map Prod.fst ++
              (dv.map Prod.fst).filter (fun k' => !((lv.map Prod.fst).contains k')) := rfl
        rw [hkeys, diffEntriesOrdered_append, hlocal, habsent, List.append_nil]
      | seq ds =>
        rw [compareOrdered_type_mismatch localFirstOrd (by simp [typeOf])]
        simp [compare_and_extract_diff, isMap, isSeq]
      | scalar b =>
        rw [compareOrdered_type_mismatch localFirstOrd (by cases b <;> simp [typeOf])]
        simp [compare_and_extract_diff, isMap, isSeq]
      | null =>
        rw [compareOrdered_type_mismatch localFirstOrd (by simp [typeOf])]
        simp [compare_and_extract_diff, isMap, isSeq]

/-- C9 (amended): the two implementations are not equivalent in general;
they agree on every input pair in which no compared scalar pair is
Python-==-equal with different Python types (such as 1 versus 1.0), with
the local Mapping unique-keyed, when main-ordered.py's set iteration
enumerates local keys first in local order. -/
theorem implementations_agree (l d : Tree) (h1 : nodupKeys l = true)
    (h2 : typeAligned l d = true) :
    compare_and_extract_diff_ordered localFirstOrd l d = compare_and_extract_diff l d :=
  equiv_aux (Tree.size l) l d le_rfl h1 h2

/-- Witness for C9's agreement theorem at a two-key Mapping pair. -/
theorem implementations_agree_witness :
    compare_and_extract_diff_ordered localFirstOrd
        (.mapping [("a", .scalar (.int 1)), ("b", .scalar (.int 2))])
        (.mapping [("a", .scalar (.int 1)), ("b", .scalar (.int 3))])
      = compare_and_extract_diff
        (.mapping [("a", .scalar (.int 1)), ("b", .scalar (.int 2))])
        (.mapping [("a", .scalar (.int 1)), ("b", .scalar (.int 3))]) :=
  implementations_agree _ _ (by rfl) (by decide)

/-- C9 counterexample: on the scalars 1 (int) and 1.0 (float) main.py
reports no difference while main-ordered.py reports the whole local
value, so the two implementations are not equivalent. -/
theorem implementations_agree_counterexample :
    compare_and_extract_diff (.scalar (.int 1)) (.scalar (.float 1)) = none ∧
    compare_and_extract_diff_ordered localFirstOrd (.scalar (.int 1)) (.scalar (.float 1))
      = some (.scalar (.int 1)) := by
  constructor
  · rw [compare_scalar_scalar]
    simp [pyEqScalar, pyNum]
  · rw [compareOrdered_scalar_scalar]
    simp [sameScalarType]

theorem ordComplete_localFirstOrd : ordComplete localFirstOrd := by
  intro ls ds k hk
  exact List.mem_append_left _ hk

/-- A key whose contribution is empty never appears in main-ordered.py's
diff dict, whatever the iteration order. -/
theorem diffEntriesOrdered_lookup_none {ord : List String → List String → List String}
    {lv dv : List (String × Tree)} {k : String}
    (h0 : diffKeyOrdered ord lv dv k = none) :
    ∀ ks, keyLookup k (diffEntriesOrdered ord lv dv ks) = none := by
  intro ks
  induction ks with
  | nil => simp [diffEntriesOrdered, keyLookup]
  | cons k1 ks ih =>
    by_cases hk : k1 = k
    · subst hk
      cases hdv : keyLookup k1 dv with
      | none =>
        cases hlv : keyLookup k1 lv with
        | none => simp [diffEntriesOrdered, hdv, hlv, ih]
        | some li =>
          cases li with
          | null => simp [diffEntriesOrdered, hdv, hlv, ih]
          | mapping es2 => simp [diffKeyOrdered, hdv, hlv] at h0
          | seq es2 => simp [diffKeyOrdered, hdv, hlv] at h0
          | scalar b2 => simp [diffKeyOrdered, hdv, hlv] at h0
      | some di =>
        cases hlv : keyLookup k1 lv with
        | none => rw [diffEntriesOrdered_cons_noLookup hdv hlv, ih]
        | some li =>
          rw [diffEntriesOrdered_cons_lookup hdv hlv]
          cases hcc : compare_and_extract_diff_ordered ord li di with
          | some sub => simp [diffKeyOrdered, hdv, hlv, hcc] at h0
          | none => simp [hcc, ih]
    · cases hdv : keyLookup k1 dv with
      | none =>
        cases hlv : keyLookup k1 lv with
        | none => simp [diffEntriesOrdered, hdv, hlv, ih]
        | some li => cases li <;> simp [diffEntriesOrdered, hdv, hlv, keyLookup, hk, ih]
      | some di =>
        cases hlv : keyLookup k1 lv with
        | none => rw [diffEntriesOrdered_cons_noLookup hdv hlv, ih]
        | some li =>
          rw [diffEntriesOrdered_cons_lookup hdv hlv]
          cases hcc : compare_and_extract_diff_ordered ord li di with
          | some sub => simp [hcc, keyLookup, hk, ih]
          | none => simp [hcc, ih]


/-- C5: a purely local addition whose value is Null is omitted from the
diff Mapping by both key loops (main-ordered.py's under every
set-iteration order); a Null local value never overrides (both
implementations return None for a Null local whatever the default); and
on the concrete input of the spec, extractOverrides of a-null against
a-1 is None. -/
theorem dropped_null_policy :
    (∀ lv dv k, keysNodup lv = true → keyLookup k dv = none →
      keyLookup k lv = some .null → keyLookup k (diffEntries lv dv) = none) ∧
    (∀ (ord : List String → List String → List String) lv dv k ks,
      keyLookup k dv = none → keyLookup k lv = some .null →
      keyLookup k (diffEntriesOrdered ord lv dv ks) = none) ∧
    (∀ d, compare_and_extract_diff .null d = none) ∧
    (∀ ord d, compare_and_extract_diff_ordered ord .null d = none) ∧
    compare_and_extract_diff (.mapping [("a", .null)])
      (.mapping [("a", .scalar (.int 1))]) = none := by
  refine ⟨fun lv dv k hnd hdv hlv => ?_,
    fun ord lv dv k ks hdv hlv => ?_,
    compare_null_left,
    fun ord d => compareOrdered_null_left ord d, rfl⟩
  · have h := diffEntries_lookup (k := k) dv hnd
    rw [hlv, hdv] at h
    simpa using h
  · exact diffEntriesOrdered_lookup_none (by simp [diffKeyOrdered, hdv, hlv]) ks

/-- Witness for C5 at a one-key local Mapping with a Null value. -/
theorem dropped_null_policy_witness :
    keyLookup "a" (diffEntries [("a", Tree.null)] []) = none ∧
    keyLookup "a" (diffEntriesOrdered localFirstOrd [("a", Tree.null)] [] ["a"]) = none ∧
    compare_and_extract_diff .null (.scalar (.int 1)) = none ∧
    compare_and_extract_diff_ordered localFirstOrd .null (.scalar (.int 1)) = none ∧
    compare_and_extract_diff (.mapping [("a", .null)])
      (.mapping [("a", .scalar (.int 1))]) = none :=
  ⟨dropped_null_policy.1 [("a", Tree.null)] [] "a" rfl rfl rfl,
   dropped_null_policy.2.1 localFirstOrd [("a", Tree.null)] [] "a" ["a"] rfl rfl,
   dropped_null_policy.2.2.1 (.scalar (.int 1)),
   dropped_null_policy.2.2.2.1 localFirstOrd (.scalar (.int 1)),
   dropped_null_policy.2.2.2.2⟩

/-- What main-ordered.py's diff dict contains at each iterated key: the
key's contribution `diffKeyOrdered`, whatever the iteration order. -/
theorem diffEntriesOrdered_lookup_mem {ord : List String → List String → List String}
    {lv dv : List (String × Tree)} {k : String} :
    ∀ {ks}, k ∈ ks → keyLookup k (diffEntriesOrdered ord lv dv ks)
      = diffKeyOrdered ord lv dv k := by
  intro ks
  induction ks with
  | nil =>
    intro hmem
    simp at hmem
  | cons k1 ks ih =>
    intro hmem
    by_cases hk : k1 = k
    · subst hk
      cases hdv : keyLookup k1 dv with
      | none =>
        cases hlv : keyLookup k1 lv with
        | none =>
          rw [show diffEntriesOrdered ord lv dv (k1 :: ks)
              = diffEntriesOrdered ord lv dv ks from by
            simp [diffEntriesOrdered, hdv, hlv]]
          rw [diffEntriesOrdered_lookup_none (by simp [diffKeyOrdered, hdv, hlv]) ks]
          simp [diffKeyOrdered, hdv, hlv]
        | some li =>
          cases li with
          | null =>
            rw [show diffEntriesOrdered ord lv dv (k1 :: ks)
                = diffEntriesOrdered ord lv dv ks from by
              simp [diffEntriesOrdered, hdv, hlv]]
            rw [diffEntriesOrdered_lookup_none (by simp [diffKeyOrdered, hdv, hlv]) ks]
            simp [diffKeyOrdered, hdv, hlv]
          | mapping es2 => simp [diffEntriesOrdered, diffKeyOrdered, hdv, hlv, keyLookup]
          | seq es2 => simp [diffEntriesOrdered, diffKeyOrdered, hdv, hlv, keyLookup]
          | scalar b2 => simp [diffEntriesOrdered, diffKeyOrdered, hdv, hlv, keyLookup]
      | some di =>
        cases hlv : keyLookup k1 lv with
        | none =>
          rw [diffEntriesOrdered_cons_noLookup hdv hlv]
          rw [diffEntriesOrdered_lookup_none (by simp [diffKeyOrdered, hdv, hlv]) ks]
          simp [diffKeyOrdered, hdv, hlv]
        | some li =>
          rw [diffEntriesOrdered_cons_lookup hdv hlv]
          cases hcc : compare_and_extract_diff_ordered ord li di with
          | some sub => simp [hcc, keyLookup, diffKeyOrdered, hdv, hlv]
          | none =>
            simp only [hcc]
            rw [diffEntriesOrdered_lookup_none
              (by simp [diffKeyOrdered, hdv, hlv, hcc]) ks]
            simp [diffKeyOrdered, hdv, hlv, hcc]
    · have hmem2 : k ∈ ks := by
        rcases List.mem_cons.mp hmem with h | h
        · exact absurd h.symm hk
        · exact h
      cases hdv : keyLookup k1 dv with
      | none =>
        cases hlv : keyLookup k1 lv with
        | none => simp [diffEntriesOrdered, hdv, hlv, ih hmem2]
        | some li =>
          cases li <;> simp [diffEntriesOrdered, hdv, hlv, keyLookup, hk, ih hmem2]
      | some di =>
        cases hlv : keyLookup k1 lv with
        | none => rw [diffEntriesOrdered_cons_noLookup hdv hlv, ih hmem2]
        | some li =>
          rw [diffEntriesOrdered_cons_lookup hdv hlv]
          cases hcc : compare_and_extract_diff_ordered ord li di with
          | some sub => simp [hcc, keyLookup, hk, ih hmem2]
          | none => simp [hcc, ih hmem2]

/-- Every key of main-ordered.py's diff dict is a key of the local
Mapping, whatever the iteration order. -/
theorem diffEntriesOrdered_keys_local {ord : List String → List String → List String}
    {lv dv : List (String × Tree)} :
    ∀ ks p, p ∈ diffEntriesOrdered ord lv dv ks → p.1 ∈ lv.map Prod.fst := by
  intro ks
  induction ks with
  | nil =>
    intro p hp
    simp [diffEntriesOrdered] at hp
  | cons k1 ks ih =>
    intro p hp
    cases hdv : keyLookup k1 dv with
    | none =>
      cases hlv : keyLookup k1 lv with
      | none =>
        rw [show diffEntriesOrdered ord lv dv (k1 :: ks)
            = diffEntriesOrdered ord lv dv ks from by
          simp [diffEntriesOrdered, hdv, hlv]] at hp
        exact ih p hp
      | some li =>
        cases li with
        | null =>
          rw [show diffEntriesOrdered ord lv dv (k1 :: ks)
              = diffEntriesOrdered ord lv dv ks from by
            simp [diffEntriesOrdered, hdv, hlv]] at hp
          exact ih p hp
        | mapping es2 =>
          rw [show diffEntriesOrdered ord lv dv (k1 :: ks)
              = (k1, .mapping es2) :: diffEntriesOrdered ord lv dv ks from by
            simp [diffEntriesOrdered, hdv, hlv]] at hp
          rcases List.mem_cons.mp hp with h | h
          · subst h
            exact List.mem_map.mpr ⟨(k1, .mapping es2), keyLookup_mem hlv, rfl⟩
          · exact ih p h
        | seq es2 =>
          rw [show diffEntriesOrdered ord lv dv (k1 :: ks)
              = (k1, .seq es2) :: diffEntriesOrdered ord lv dv ks from by
            simp [diffEntriesOrdered, hdv, hlv]] at hp
          rcases List.mem_cons.mp hp with h | h
          · subst h
            exact List.mem_map.mpr ⟨(k1, .seq es2), keyLookup_mem hlv, rfl⟩
          · exact ih p h
        | scalar b2 =>
          rw [show diffEntriesOrdered ord lv dv (k1 :: ks)
              = (k1, .scalar b2) :: diffEntriesOrdered ord lv dv ks from by
            simp [diffEntriesOrdered, hdv, hlv]] at hp
          rcases List.mem_cons.mp hp with h | h
          · subst h
            exact List.mem_map.mpr ⟨(k1, .scalar b2), keyLookup_mem hlv, rfl⟩
          · exact ih p h
    | some di =>
      cases hlv : keyLookup k1 lv with
      | none =>
        rw [diffEntriesOrdered_cons_noLookup hdv hlv] at hp
        exact ih p hp
      | some li =>
        rw [diffEntriesOrdered_cons_lookup hdv hlv] at hp
        cases hcc : compare_and_extract_diff_ordered ord li di with
        | some sub =>
          rw [hcc] at hp
          rcases List.mem_cons.mp hp with h | h
          · subst h
            exact List.mem_map.mpr ⟨(k1, li), keyLookup_mem hlv, rfl⟩
          · exact ih p h
        | none =>
          rw [hcc] at hp
          exact ih p hp

/-- Master round-trip lemma for main-ordered.py: under any set-iteration
order that covers every local key, a None diff means the local tree
agrees with the default, and a Some diff merged back onto the default
agrees with the local tree — agreement modulo default-only keys and
dropped nulls, with Python value equality at the leaves, on NaN-free
unique-keyed local trees. -/
theorem roundtrip_ordered_aux (ord : List String → List String → List String)
    (hco : ordComplete ord) :
    ∀ n (l d : Tree), Tree.size l ≤ n → nodupKeys l = true → nanFree l = true →
    (compare_and_extract_diff_ordered ord l d = none → agreeExc l d = true) ∧
    (∀ s, compare_and_extract_diff_ordered ord l d = some s →
      agreeExc l (mergeOverride d s) = true) := by
  intro n
  induction n with
  | zero =>
    intro l d h
    have := size_pos l
    omega
  | succ n ih =>
    intro l d hsz hnd hnf
    cases l with
    | null =>
      refine ⟨fun _ => rfl, fun s hs => ?_⟩
      rw [compareOrdered_null_left] at hs
      cases hs
    | scalar a =>
      have ha : Scalar.isNan a = false := by simpa [nanFree] using hnf
      have hrefl : agreeExc (Tree.scalar a) (Tree.scalar a) = true := by
        simp [agreeExc, pyEqTree, pyEqScalar_refl ha]
      cases d with
      | scalar b =>
        rw [compareOrdered_scalar_scalar]
        by_cases hst : sameScalarType a b = true
        · rw [if_pos hst]
          by_cases hpe : pyEqScalar a b = true
          · rw [if_pos hpe]
            refine ⟨fun _ => ?_, fun s hs => ?_⟩
            · simp [agreeExc, pyEqTree, hpe]
            · cases hs
          · rw [if_neg hpe]
            refine ⟨fun h => ?_, fun s hs => ?_⟩
            · cases h
            injection hs with hs
            subst hs
            rw [mergeOverride_nonmapping (by simp [isMap])]
            exact hrefl
        · rw [if_neg hst]
          refine ⟨fun h => ?_, fun s hs => ?_⟩
          · cases h
          injection hs with hs
          subst hs
          rw [mergeOverride_nonmapping (by simp [isMap])]
          exact hrefl
      | mapping dv =>
        rw [compareOrdered_type_mismatch ord (by cases a <;> simp [typeOf])]
        refine ⟨fun h => ?_, fun s hs => ?_⟩
        · simp at h
        · simp at hs
          subst hs
          rw [mergeOverride_nonmapping (by simp [isMap])]
          exact hrefl
      | seq ds =>
        rw [compareOrdered_type_mismatch ord (by cases a <;> simp [typeOf])]
        refine ⟨fun h => ?_, fun s hs => ?_⟩
        · simp at h
        · simp at hs
          subst hs
          rw [mergeOverride_nonmapping (by simp [isMap])]
          exact hrefl
      | null =>
        rw [compareOrdered_type_mismatch ord (by cases a <;> simp [typeOf])]
        refine ⟨fun h => ?_, fun s hs => ?_⟩
        · simp at h
        · simp at hs
          subst hs
          rw [mergeOverride_nonmapping (by simp [isMap])]
          exact hrefl
    | seq es =>
      have hrefl : agreeExc (Tree.seq es) (Tree.seq es) = true :=
        agreeExc_refl (Tree.size (Tree.seq es)) _ le_rfl hnd hnf
      cases d with
      | seq ds =>
        rw [compareOrdered_seq_seq]
        by_cases hpe : pyEqTree (Tree.seq es) (Tree.seq ds) = true
        · rw [if_pos hpe]
          refine ⟨fun _ => ?_, fun s hs => ?_⟩
          · simpa [agreeExc] using hpe
          · cases hs
        · rw [if_neg hpe]
          refine ⟨fun h => ?_, fun s hs => ?_⟩
          · cases h
          injection hs with hs
          subst hs
          rw [mergeOverride_nonmapping (by simp [isMap])]
          exact hrefl
      | mapping dv =>
        rw [compareOrdered_type_mismatch ord (by simp [typeOf])]
        refine ⟨fun h => ?_, fun s hs => ?_⟩
        · simp at h
        · simp at hs
          subst hs
          rw [mergeOverride_nonmapping (by simp [isMap])]
          exact hrefl
      | scalar b =>
        rw [compareOrdered_type_mismatch ord (by cases b <;> simp [typeOf])]
        refine ⟨fun h => ?_, fun s hs => ?_⟩
        · simp at h
        · simp at hs
          subst hs
          rw [mergeOverride_nonmapping (by simp [isMap])]
          exact hrefl
      | null =>
        rw [compareOrdered_type_mismatch ord (by simp [typeOf])]
        refine ⟨fun h => ?_, fun s hs => ?_⟩
        · simp at h
        · simp at hs
          subst hs
          rw [mergeOverride_nonmapping (by simp [isMap])]
          exact hrefl
    | mapping lv =>
      obtain ⟨h1, h2⟩ := nodupKeys_mapping hnd
      have h3 : nanFreeEntries lv = true := nanFree_mapping hnf
      have hszm : Tree.size (Tree.mapping lv) = 1 + sizeEntries lv := by simp [Tree.size]
      have hrefl : agreeExc (Tree.mapping lv) (Tree.mapping lv) = true :=
        agreeExc_refl (Tree.size (Tree.mapping lv)) _ le_rfl hnd hnf
      cases d with
      | seq ds =>
        rw [compareOrdered_type_mismatch ord (by simp [typeOf])]
        refine ⟨fun h => ?_, fun s hs => ?_⟩
        · simp at h
        · simp at hs
          subst hs
          rw [mergeOverride_base_nonmapping (by simp [isMap])]
          exact hrefl
      | scalar b =>
        rw [compareOrdered_type_mismatch ord (by cases b <;> simp [typeOf])]
        refine ⟨fun h => ?_, fun s hs => ?_⟩
        · simp at h
        · simp at hs
          subst hs
          rw [mergeOverride_base_nonmapping (by simp [isMap])]
          exact hrefl
      | null =>
        rw [compareOrdered_type_mismatch ord (by simp [typeOf])]
        refine ⟨fun h => ?_, fun s hs => ?_⟩
        · simp at h
        · simp at hs
          subst hs
          rw [mergeOverride_base_nonmapping (by simp [isMap])]
          exact hrefl
      | mapping dv =>
        rw [compareOrdered_mapping_mapping]
        refine ⟨fun h => ?_, fun s hs => ?_⟩
        · -- a None diff: every local entry agrees with the default
          by_cases he : (diffEntriesOrdered ord lv dv
              (ord (lv.map Prod.fst) (dv.map Prod.fst))).isEmpty
          · have hdiff : diffEntriesOrdered ord lv dv
                (ord (lv.map Prod.fst) (dv.map Prod.fst)) = [] := by
              simpa [List.isEmpty_iff] using he
            simp only [agreeExc]
            rw [agreeEntriesExc_iff]
            intro k v hm
            have hk : keyLookup k lv = some v := mem_keyLookup_of_nodup h1 hm
            have hvsz : Tree.size v ≤ n := by
              have := mem_entries_size hm
              omega
            have hvnd : nodupKeys v = true := nodupEntries_mem h2 hm
            have hvnf : nanFree v = true := nanFreeEntries_mem h3 hm
            have hin : k ∈ ord (lv.map Prod.fst) (dv.map Prod.fst) :=
              hco _ _ _ (List.mem_map.mpr ⟨(k, v), hm, rfl⟩)
            have hlook := @diffEntriesOrdered_lookup_mem ord lv dv k _ hin
            rw [hdiff] at hlook
            have hkey : diffKeyOrdered ord lv dv k = none := by
              simpa [keyLookup] using hlook.symm
            cases hdv : keyLookup k dv with
            | some di =>
              simp [diffKeyOrdered, hdv, hk] at hkey
              refine ⟨fun w hw => ?_, fun hn => ?_⟩
              · injection hw with hw
                subst hw
                exact (ih v di hvsz hvnd hvnf).1 hkey
              · cases hn
            | none =>
              cases v with
              | null =>
                refine ⟨fun w hw => ?_, fun _ => rfl⟩
                cases hw
              | mapping es2 => simp [diffKeyOrdered, hdv, hk] at hkey
              | seq es2 => simp [diffKeyOrdered, hdv, hk] at hkey
              | scalar b2 => simp [diffKeyOrdered, hdv, hk] at hkey
          · simp [he] at h
        · -- a Some diff merged back onto the default
          by_cases he : (diffEntriesOrdered ord lv dv
              (ord (lv.map Prod.fst) (dv.map Prod.fst))).isEmpty
          · simp [he] at hs
          · rw [if_neg he] at hs
            injection hs with hs
            subst hs
            simp only [mergeOverride, agreeExc]
            rw [agreeEntriesExc_iff]
            intro k v hm
            have hk : keyLookup k lv = some v := mem_keyLookup_of_nodup h1 hm
            have hvsz : Tree.size v ≤ n := by
              have := mem_entries_size hm
              omega
            have hvnd : nodupKeys v = true := nodupEntries_mem h2 hm
            have hvnf : nanFree v = true := nanFreeEntries_mem h3 hm
            have hin : k ∈ ord (lv.map Prod.fst) (dv.map Prod.fst) :=
              hco _ _ _ (List.mem_map.mpr ⟨(k, v), hm, rfl⟩)
            have hlook := @diffEntriesOrdered_lookup_mem ord lv dv k _ hin
            have hmerge := keyLookup_mergeOverride (k := k) dv
              (diffEntriesOrdered ord lv dv (ord (lv.map Prod.fst) (dv.map Prod.fst)))
            cases hdv : keyLookup k dv with
            | some di =>
              simp [diffKeyOrdered, hdv, hk] at hlook
              rw [hdv, hlook] at hmerge
              cases hcc : compare_and_extract_diff_ordered ord v di with
              | some sub =>
                rw [hcc] at hmerge
                simp only [] at hmerge
                refine ⟨fun w hw => ?_, fun hn => ?_⟩
                · rw [hmerge] at hw
                  injection hw with hw
                  subst hw
                  exact (ih v di hvsz hvnd hvnf).2 sub hcc
                · rw [hmerge] at hn
                  cases hn
              | none =>
                rw [hcc] at hmerge
                simp only [] at hmerge
                refine ⟨fun w hw => ?_, fun hn => ?_⟩
                · rw [hmerge] at hw
                  injection hw with hw
                  subst hw
                  exact (ih v di hvsz hvnd hvnf).1 hcc
                · rw [hmerge] at hn
                  cases hn
            | none =>
              rw [hdv] at hmerge
              simp only [] at hmerge
              rw [hlook] at hmerge
              cases v with
              | null => exact ⟨fun w _ => rfl, fun _ => rfl⟩
              | mapping es2 =>
                rw [show diffKeyOrdered ord lv dv k = some (.mapping es2) from by
                  simp [diffKeyOrdered, hdv, hk]] at hmerge
                refine ⟨fun w hw => ?_, fun hn => ?_⟩
                · rw [hmerge] at hw
                  injection hw with hw
                  subst hw
                  exact agreeExc_refl (Tree.size (Tree.mapping es2)) _ le_rfl hvnd hvnf
                · rw [hmerge] at hn
                  cases hn
              | seq es2 =>
                rw [show diffKeyOrdered ord lv dv k = some (.seq es2) from by
                  simp [diffKeyOrdered, hdv, hk]] at hmerge
                refine ⟨fun w hw => ?_, fun hn => ?_⟩
                · rw [hmerge] at hw
                  injection hw with hw
                  subst hw
                  exact agreeExc_refl (Tree.size (Tree.seq es2)) _ le_rfl hvnd hvnf
                · rw [hmerge] at hn
                  cases hn
              | scalar b2 =>
                rw [show diffKeyOrdered ord lv dv k = some (.scalar b2) from by
                  simp [diffKeyOrdered, hdv, hk]] at hmerge
                refine ⟨fun w hw => ?_, fun hn => ?_⟩
                · rw [hmerge] at hw
                  injection hw with hw
                  subst hw
                  exact agreeExc_refl (Tree.size (Tree.scalar b2)) _ le_rfl hvnd hvnf
                · rw [hmerge] at hn
                  cases hn

/-- C1 (amended): whenever either implementation produces a diff D from a
unique-keyed NaN-free local tree (main-ordered.py under any set-iteration
order that covers every local key, as every enumeration of the key-set
union does), merging D onto the default with the override-wins merge
reproduces the local tree up to (a) keys present only in the default,
(b) the dropped-null cases, and (c) the code's Python value equality at
Scalar and Sequence leaves (under which 1 and 1.0 coincide); moreover
every key of a Mapping diff is a key of the local Mapping. -/
theorem roundtrip (l d D : Tree) (h1 : nodupKeys l = true)
    (h2 : nanFree l = true) :
    (compare_and_extract_diff l d = some D →
      agreeExc l (mergeOverride d D) = true ∧
      (∀ ls es, l = .mapping ls → D = .mapping es →
        ∀ p ∈ es, p.1 ∈ ls.map Prod.fst)) ∧
    (∀ ord, ordComplete ord → compare_and_extract_diff_ordered ord l d = some D →
      agreeExc l (mergeOverride d D) = true ∧
      (∀ ls es, l = .mapping ls → D = .mapping es →
        ∀ p ∈ es, p.1 ∈ ls.map Prod.fst)) := by
  constructor
  · intro hD
    refine ⟨(roundtrip_aux (Tree.size l) l d le_rfl h1 h2).2 D hD, ?_⟩
    rintro ls es rfl rfl
    intro p hp
    cases d with
    | mapping dv =>
      rw [compare_mapping_mapping] at hD
      by_cases he : (diffEntries ls dv).isEmpty
      · simp [he] at hD
      · rw [if_neg he] at hD
        injection hD with hD
        injection hD with hD
        rw [← hD] at hp
        exact (diffEntries_keys_sublist ls dv).subset
          (List.mem_map.mpr ⟨p, hp, rfl⟩)
    | seq ds =>
      simp [compare_and_extract_diff, isMap, isSeq] at hD
      rw [← hD] at hp
      exact List.mem_map.mpr ⟨p, hp, rfl⟩
    | scalar b =>
      simp [compare_and_extract_diff, isMap, isSeq] at hD
      rw [← hD] at hp
      exact List.mem_map.mpr ⟨p, hp, rfl⟩
    | null =>
      simp [compare_and_extract_diff, isMap, isSeq] at hD
      rw [← hD] at hp
      exact List.mem_map.mpr ⟨p, hp, rfl⟩
  · intro ord hord hD
    refine ⟨(roundtrip_ordered_aux ord hord (Tree.size l) l d le_rfl h1 h2).2 D hD, ?_⟩
    rintro ls es rfl rfl
    intro p hp
    cases d with
    | mapping dv =>
      rw [compareOrdered_mapping_mapping] at hD
      by_cases he : (diffEntriesOrdered ord ls dv
          (ord (ls.map Prod.fst) (dv.map Prod.fst))).isEmpty
      · simp [he] at hD
      · rw [if_neg he] at hD
        injection hD with hD
        injection hD with hD
        rw [← hD] at hp
        exact diffEntriesOrdered_keys_local _ p hp
    | seq ds =>
      rw [compareOrdered_type_mismatch ord (by simp [typeOf])] at hD
      simp at hD
      rw [← hD] at hp
      exact List.mem_map.mpr ⟨p, hp, rfl⟩
    | scalar b =>
      rw [compareOrdered_type_mismatch ord (by cases b <;> simp [typeOf])] at hD
      simp at hD
      rw [← hD] at hp
      exact List.mem_map.mpr ⟨p, hp, rfl⟩
    | null =>
      rw [compareOrdered_type_mismatch ord (by simp [typeOf])] at hD
      simp at hD
      rw [← hD] at hp
      exact List.mem_map.mpr ⟨p, hp, rfl⟩

/-- Witness for C1: the agreement conclusion of both parts, each at a
concrete one-key override. -/
theorem roundtrip_witness :
    agreeExc (Tree.mapping [("a", Tree.scalar (.int 2))])
      (mergeOverride (Tree.mapping [("a", Tree.scalar (.int 1))])
        (Tree.mapping [("a", Tree.scalar (.int 2))])) = true ∧
    agreeExc (Tree.mapping [("b", Tree.scalar (.str "x"))])
      (mergeOverride (Tree.mapping [("b", Tree.scalar (.str "y"))])
        (Tree.mapping [("b", Tree.scalar (.str "x"))])) = true :=
  ⟨((roundtrip (.mapping [("a", .scalar (.int 2))]) (.mapping [("a", .scalar (.int 1))])
      (.mapping [("a", .scalar (.int 2))]) rfl rfl).1 rfl).1,
   ((roundtrip (.mapping [("b", .scalar (.str "x"))]) (.mapping [("b", .scalar (.str "y"))])
      (.mapping [("b", .scalar (.str "x"))]) rfl rfl).2 localFirstOrd
      ordComplete_localFirstOrd (by
        simp [compare_and_extract_diff_ordered, diffEntriesOrdered, localFirstOrd,
          typeOf, keyLookup, pyEqTree, pyEqScalar])).1⟩

/-- C1 counterexample: with local a:1 (int), b:2 and default a:1.0
(float), b:3 the diff is b:2 and the merge yields a:1.0, b:2, which
fails the spec's type-sensitive structural equality against the local
tree at the key a, although a is present on both sides and not null. -/
theorem roundtrip_counterexample :
    compare_and_extract_diff
        (.mapping [("a", .scalar (.int 1)), ("b", .scalar (.int 2))])
        (.mapping [("a", .scalar (.float 1)), ("b", .scalar (.int 3))])
      = some (.mapping [("b", .scalar (.int 2))]) ∧
    agreeSpecExc (.mapping [("a", .scalar (.int 1)), ("b", .scalar (.int 2))])
      (mergeOverride (.mapping [("a", .scalar (.float 1)), ("b", .scalar (.int 3))])
        (.mapping [("b", .scalar (.int 2))])) = false := by
  constructor
  · rw [compare_mapping_mapping]
    simp [diffEntries, keyLookup, compare_scalar_scalar, pyEqScalar, pyNum]
  · rfl

end HelmDiff
